import Mathlib

/-!
Verification of pymia's assembler module (src/pymia/data/assembler.py).

The embedding models:
- Python dicts as insertion-ordered association lists (`Dict`),
- Python sets as `Finset`,
- numpy arrays as a recorded shape plus a total valuation on integer
  coordinate lists (`NArr`), with numpy basic indexing (int / slice
  selectors) given explicit write semantics (`writeAtN`),
- Python exceptions as an `Except PyErr` result.

The classes `SubjectAssembler`, `PlaneSubjectAssembler` and
`Subject2dAssembler` are translated operation by operation from the source.
The `IndexExpression` data type and the `SizeCorrection` transform live in
repository files not present under src/; they are modelled from the spec
where needed (see the doc comments of `Selector`, `getIndexing` and the
size-correction parameter of `planeAddBatch`).
-/

/-- Scalar values of arrays (numpy floats idealized as rationals). -/
abbrev Val := ℚ

/-- A coordinate of a multi-dimensional array: one integer per dimension. -/
abbrev Pos := List ℕ

/-- Python dict: insertion-ordered association list. Updates keep position,
new keys are appended. -/
abbrev Dict (K V : Type) := List (K × V)

namespace Dict

def get? {K V : Type} [DecidableEq K] : Dict K V → K → Option V
  | [], _ => none
  | kv :: rest, k => if kv.1 = k then some kv.2 else get? rest k

def contains {K V : Type} [DecidableEq K] (d : Dict K V) (k : K) : Bool :=
  (d.get? k).isSome

def insert {K V : Type} [DecidableEq K] : Dict K V → K → V → Dict K V
  | [], k, v => [(k, v)]
  | kv :: rest, k, v => if kv.1 = k then (k, v) :: rest else kv :: insert rest k v

/-- `dict.pop(k)` / `del`: remove the entry for `k` (first occurrence). -/
def erase {K V : Type} [DecidableEq K] : Dict K V → K → Dict K V
  | [], _ => []
  | kv :: rest, k => if kv.1 = k then rest else kv :: erase rest k

def keys {K V : Type} (d : Dict K V) : List K := d.map Prod.fst

end Dict

/-- `set(d.keys())` for a dict with natural-number keys. -/
def keysFinset {V : Type} (d : Dict ℕ V) : Finset ℕ := d.keys.toFinset

/-- Python exceptions distinguished by kind. -/
inductive PyErr : Type
  | valueError (msg : String)
  | keyError
  | indexError
  | typeError
  | attributeError
deriving DecidableEq

/-- Modelled from the spec: `IndexExpression` (pymia/data/indexexpression.py,
not under src/) holds an ordered sequence of per-dimension selectors:
full-range (`slice(None)`), bounded range (`slice(a, b)`), or a single
index (an int, collapsing that dimension). -/
inductive Selector : Type
  | all : Selector
  | rng (a b : ℕ) : Selector
  | idx (i : ℕ) : Selector
deriving DecidableEq

/-- The `.expression` tuple of an IndexExpression. -/
abbrev IndexExpr := List Selector

/-- Whether one selector selects coordinate `x` of its dimension. -/
def sel1 : Selector → ℕ → Bool
  | .all, _ => true
  | .rng a b, x => decide (a ≤ x) && decide (x < b)
  | .idx i, x => decide (x = i)

/-- Whether the expression selects position `p` of the target array
(dimensions beyond the expression are fully selected; a position of
smaller rank than the expression is not selected). -/
def selects : IndexExpr → Pos → Bool
  | [], _ => true
  | _ :: _, [] => false
  | s :: e, x :: p => sel1 s x && selects e p

/-- The coordinate inside the source chunk corresponding to target
position `p`: single-index dimensions are dropped, range dimensions are
shifted by the range start. -/
def relIndex : IndexExpr → Pos → Pos
  | [], p => p
  | _ :: _, [] => []
  | .all :: e, x :: p => x :: relIndex e p
  | .rng a _ :: e, x :: p => (x - a) :: relIndex e p
  | .idx _ :: e, _ :: p => relIndex e p

/-- A numpy array: its shape and its valuation on coordinates. -/
structure NArr : Type where
  shape : List ℕ
  val : Pos → Val

/-- numpy assignment `a[e] = d`: positions selected by `e` take the
corresponding chunk value, others are unchanged. -/
def writeAtN (e : IndexExpr) (d : NArr) (a : NArr) : NArr :=
  ⟨a.shape, fun p => if selects e p then d.val (relIndex e p) else a.val p⟩

/-- `numpy_zeros` (assembler.py line 47): the default `zero_fn`. -/
def numpy_zeros (shape : List ℕ) : NArr := ⟨shape, fun _ => 0⟩

/-- A batched network output for one key: `shape` is the full batch-array
shape `(B, ..., C)` (only its last entry, the channel count, is read by the
code) and `items` are the per-sample slices `to_assemble[key][idx]`. -/
structure BatchArr : Type where
  shape : List ℕ
  items : List NArr

/-- The `to_assemble` argument: either a bare array or a dict of arrays. -/
inductive ToAssemble : Type
  | bare (ba : BatchArr)
  | dict (d : Dict String BatchArr)

/-- The wrap performed by every `add_batch`: a non-dict argument becomes
a one-key dict under the implicit key. -/
def ToAssemble.toDict : ToAssemble → Dict String BatchArr
  | .bare ba => [("__prediction", ba)]
  | .dict d => d

/-- The `batch` dict restricted to the keys the assemblers read; a `none`
field models an absent key. -/
structure Batch : Type where
  subjectIndex : Option (List ℕ) := none
  indexExpr : Option (List IndexExpr) := none
  shape : Option (List (List ℕ)) := none
  ids : Option (List ℕ) := none

/-- The per-sample hook: given key, data slice and the batch's index
expression, produce the data and expression actually written
(`default_sample_fn` passes both through; `TransformSampleFn` rewrites
them). -/
abbrev OnSampleFn := String → NArr → IndexExpr → NArr × IndexExpr

/-- `default_sample_fn` (assembler.py line 51): data and index expression
pass through unchanged (deserialization of pickled expressions is a
byte-level detail not modelled: expressions are kept live). -/
def default_sample_fn : OnSampleFn := fun _ d e => (d, e)

/-- The mutable state of a `SubjectAssembler`: the accumulator store
`predictions` and the ready set `_subjects_ready`. -/
structure SubjectAssembler : Type where
  predictions : Dict ℕ (Dict String NArr)
  subjectsReady : Finset ℕ

/-- A freshly constructed `SubjectAssembler()`. -/
def SubjectAssembler.init : SubjectAssembler := ⟨[], ∅⟩

/-- `SubjectAssembler.end` (line 111): ready set becomes the set of all
stored keys. -/
def SubjectAssembler.endFlush (st : SubjectAssembler) : SubjectAssembler :=
  { st with subjectsReady := keysFinset st.predictions }

/-- `SubjectAssembler._init_new_subject` (lines 136-142): one zero array
per key, shaped `batch['shape'][idx] + (to_assemble[key].shape[-1],)`. -/
def initNewSubject (b : Batch) (idx : ℕ) : List (String × BatchArr) → Except PyErr (Dict String NArr)
  | [] => .ok []
  | (k, ba) :: rest =>
    match b.shape with
    | none => .error .keyError
    | some shs =>
      match shs.get? idx with
      | none => .error .indexError
      | some sh =>
        match ba.shape.getLast? with
        | none => .error .indexError
        | some chan =>
          (initNewSubject b idx rest).map (fun d => (k, numpy_zeros (sh ++ [chan])) :: d)

/-- The `for key in to_assemble` loop of `add_sample` (lines 125-134):
fetch the data slice and index expression, run the per-sample hook, and
write into the accumulator of subject `s`. -/
def writeKeys (osf : OnSampleFn) (b : Batch) (idx : ℕ) (s : ℕ) :
    List (String × BatchArr) → SubjectAssembler → Except PyErr SubjectAssembler
  | [], st => .ok st
  | (k, ba) :: rest, st =>
    match ba.items.get? idx with
    | none => .error .indexError
    | some data =>
      match b.indexExpr with
      | none => .error .keyError
      | some es =>
        match es.get? idx with
        | none => .error .indexError
        | some e =>
          match st.predictions.get? s with
          | none => .error .keyError
          | some acc =>
            match acc.get? k with
            | none => .error .keyError
            | some arr =>
              let de := osf k data e
              writeKeys osf b idx s rest
                { st with predictions :=
                    st.predictions.insert s (acc.insert k (writeAtN de.2 de.1 arr)) }

/-- `SubjectAssembler.add_sample` (lines 114-134). -/
def addSample (osf : OnSampleFn) (tad : Dict String BatchArr) (b : Batch) (idx : ℕ)
    (st : SubjectAssembler) : Except PyErr SubjectAssembler :=
  match b.subjectIndex with
  | none => .error .keyError
  | some sids =>
    match sids.get? idx with
    | none => .error .indexError
    | some s =>
      let stInit : Except PyErr SubjectAssembler :=
        if ¬ st.predictions.contains s ∧ st.predictions.isEmpty then
          (initNewSubject b idx tad).map
            (fun acc => { st with predictions := st.predictions.insert s acc })
        else if ¬ st.predictions.contains s then
          (initNewSubject b idx tad).map
            (fun acc => { st with subjectsReady := keysFinset st.predictions,
                                  predictions := st.predictions.insert s acc })
        else .ok st
      match stInit with
      | .error e => .error e
      | .ok st1 => writeKeys osf b idx s tad st1

/-- The `for idx in range(...)` loop of `add_batch` over a list of batch
positions, threading the assembler state and propagating exceptions. -/
def addSamples (osf : OnSampleFn) (tad : Dict String BatchArr) (b : Batch) :
    List ℕ → SubjectAssembler → Except PyErr SubjectAssembler
  | [], st => .ok st
  | idx :: rest, st =>
    match addSample osf tad b idx st with
    | .error e => .error e
    | .ok st1 => addSamples osf tad b rest st1

/-- `SubjectAssembler.add_batch` (lines 92-109). -/
def SubjectAssembler.addBatch (osf : OnSampleFn) (ta : ToAssemble) (b : Batch)
    (lastBatch : Bool) (st : SubjectAssembler) : Except PyErr SubjectAssembler :=
  if b.subjectIndex = none then
    .error (.valueError "SubjectAssembler requires subject_index to be extracted")
  else if b.indexExpr = none then
    .error (.valueError "SubjectAssembler requires index_expr to be extracted")
  else if b.shape = none then
    .error (.valueError "SubjectAssembler requires shape to be extracted")
  else
    match addSamples osf ta.toDict b (List.range (b.subjectIndex.getD []).length) st with
    | .error e => .error e
    | .ok st1 => .ok (if lastBatch then st1.endFlush else st1)

/-- The value returned by a retrieval: the key dict, or the bare array when
the implicit key is present. -/
inductive AVal : Type
  | bare (a : NArr)
  | dict (d : Dict String NArr)

/-- `SubjectAssembler.get_assembled_subject` (lines 144-156), returning the
value and the mutated assembler. -/
def SubjectAssembler.getAssembledSubject (st : SubjectAssembler) (s : ℕ) :
    Except PyErr (AVal × SubjectAssembler) :=
  if s ∉ st.subjectsReady ∧ ¬ st.predictions.contains s then
    .error (.valueError "Subject not in assembler")
  else
    match st.predictions.get? s with
    | none => .error .keyError
    | some assembled =>
      let st1 : SubjectAssembler :=
        ⟨st.predictions.erase s, st.subjectsReady.erase s⟩
      match assembled.get? "__prediction" with
      | some a => .ok (.bare a, st1)
      | none => .ok (.dict assembled, st1)

/-- `mean_merge_fn` (lines 159-160): `np.stack(planes).mean(axis=0)` — the
elementwise mean across the per-plane arrays (shape taken from the first). -/
def mean_merge_fn (xs : List NArr) : NArr :=
  ⟨(xs.head?.map NArr.shape).getD [], fun p => (xs.map (fun a => a.val p)).sum / xs.length⟩

/-- Modelled from the spec: `IndexExpression.get_indexing`
(pymia/data/indexexpression.py, not under src/) returns one entry per
selector — a `(start, stop)` pair for a slice and a plain int for a single
index; a full-range slice yields the pair with no real bounds. -/
inductive PyIndex : Type
  | tup (a b : ℕ)
  | int (i : ℕ)
  | fullr
deriving DecidableEq

/-- Modelled from the spec: per-selector image of `get_indexing`. -/
def getIndexing (e : IndexExpr) : List PyIndex :=
  e.map (fun s => match s with
    | .all => .fullr
    | .rng a b => .tup a b
    | .idx i => .int i)

/-- `PlaneSubjectAssembler._get_plane_dimension` (lines 291-297): index of
the first expression entry that is an int or a non-full slice; `none` when
every entry is full-range (Python falls off the end returning `None`). -/
def getPlaneDimension (e : IndexExpr) : Option ℕ :=
  e.findIdx? (fun s => !(s matches Selector.all))

/-- Lines 240-249 of `PlaneSubjectAssembler.add_batch`: the required
in-plane shape, as Python ints. A bounded range keeps the plane dimension
with size `stop - start`; a single index removes it; out-of-range accesses
raise IndexError and a full-range entry at the plane dimension raises
TypeError (`None - None`). -/
def requiredPlaneShape (sh : List ℕ) (pd : ℕ) (e : IndexExpr) : Except PyErr (List ℤ) :=
  match (getIndexing e).get? pd with
  | none => .error .indexError
  | some (.tup a b) =>
    if pd < sh.length then .ok ((sh.map (fun n => (n : ℤ))).set pd ((b : ℤ) - (a : ℤ)))
    else .error .indexError
  | some (.int _) =>
    if pd < sh.length then .ok ((sh.map (fun n => (n : ℤ))).eraseIdx pd)
    else .error .indexError
  | some .fullr => .error .typeError

/-- Modelled from the spec: the size-correction strategy
(`TransformSampleFn` over `tfm.SizeCorrection`, pymia/data/transformation.py
not under src/) crops/pads a chunk and rewrites its index expression to a
required shape. It is kept abstract: a function of the required shape and
the entry keys producing the per-sample hook. -/
abbrev SizeCorrectionFn := List ℤ → List String → OnSampleFn

/-- The state of a `PlaneSubjectAssembler`: one `SubjectAssembler` per
plane dimension (a dict keyed by the possibly-`None` plane dimension) and
the composite ready set, which the code can set to Python `None`
(modelled by `Option`). -/
structure PlaneSubjectAssembler : Type where
  planes : Dict (Option ℕ) SubjectAssembler
  subjectsReady : Option (Finset ℕ)

/-- A freshly constructed `PlaneSubjectAssembler()`. -/
def PlaneSubjectAssembler.init : PlaneSubjectAssembler := ⟨[], some ∅⟩

/-- The per-chunk loop of `PlaneSubjectAssembler.add_batch`
(lines 226-253): route each chunk to the sub-assembler of its plane
dimension, installing the size-correction hook for the chunk's required
in-plane shape. -/
def planeLoop (scf : SizeCorrectionFn) (tad : Dict String BatchArr) (b : Batch) :
    List ℕ → Dict (Option ℕ) SubjectAssembler → Except PyErr (Dict (Option ℕ) SubjectAssembler)
  | [], ps => .ok ps
  | idx :: rest, ps =>
    match (b.indexExpr.getD []).get? idx with
    | none => .error .indexError
    | some e =>
      let pd := getPlaneDimension e
      let ps1 := if ps.contains pd then ps else ps.insert pd SubjectAssembler.init
      match (b.shape.getD []).get? idx with
      | none => .error .indexError
      | some sh =>
        match pd with
        | none => .error .typeError
        | some k =>
          match requiredPlaneShape sh k e with
          | .error er => .error er
          | .ok rps =>
            match ps1.get? pd with
            | none => .error .keyError
            | some asm =>
              match addSample (scf rps tad.keys) tad b idx asm with
              | .error er => .error er
              | .ok asm1 => planeLoop scf tad b rest (ps1.insert pd asm1)

/-- The readiness recomputation of lines 255-264: starting from `None`,
take each plane's ready set and intersect. -/
def interFold (ps : Dict (Option ℕ) SubjectAssembler) : Option (Finset ℕ) :=
  ps.foldl (fun acc kv =>
    match acc with
    | none => some kv.2.subjectsReady
    | some r => some (r ∩ kv.2.subjectsReady)) none

/-- `PlaneSubjectAssembler.add_batch` (lines 216-264). Note it validates
only `index_expr` and `shape`, not `subject_index`. -/
def planeAddBatch (scf : SizeCorrectionFn) (ta : ToAssemble) (b : Batch)
    (lastBatch : Bool) (st : PlaneSubjectAssembler) : Except PyErr PlaneSubjectAssembler :=
  if b.indexExpr = none then
    .error (.valueError "SubjectAssembler requires index_expr to be extracted")
  else if b.shape = none then
    .error (.valueError "SubjectAssembler requires shape to be extracted")
  else
    match planeLoop scf ta.toDict b (List.range (b.indexExpr.getD []).length) st.planes with
    | .error e => .error e
    | .ok planes1 =>
      let planes2 := if lastBatch then planes1.map (fun kv => (kv.1, kv.2.endFlush)) else planes1
      .ok ⟨planes2, interFold planes2⟩

/-- The per-plane pop-and-collect loop of lines 276-282: pop the subject
from each plane (threading the mutated sub-assemblers), wrap bare results
under the implicit key, and append each value to its key's list. -/
def planeCollect (s : ℕ) :
    List (Option ℕ × SubjectAssembler) → Dict String (List NArr) →
    Except PyErr (Dict String (List NArr) × Dict (Option ℕ) SubjectAssembler)
  | [], acc => .ok (acc, [])
  | kv :: rest, acc =>
    match kv.2.getAssembledSubject s with
    | .error e => .error e
    | .ok (v, asm1) =>
      let d : Dict String NArr :=
        match v with
        | .bare a => [("__prediction", a)]
        | .dict d => d
      let acc1 := d.foldl (fun acc2 kx =>
        acc2.insert kx.1 ((acc2.get? kx.1).getD [] ++ [kx.2])) acc
      match planeCollect s rest acc1 with
      | .error e => .error e
      | .ok (accFin, psFin) => .ok (accFin, (kv.1, asm1) :: psFin)

/-- `PlaneSubjectAssembler.get_assembled_subject` (lines 266-289) with the
default `merge_fn` (`mean_merge_fn`). -/
def planeGetAssembledSubject (st : PlaneSubjectAssembler) (s : ℕ) :
    Except PyErr (AVal × PlaneSubjectAssembler) :=
  match st.subjectsReady with
  | none => .error .attributeError
  | some r =>
    let check : Except PyErr Unit :=
      if s ∈ r then .ok ()
      else
        match st.planes.get? (some 0) with
        | none => .error .keyError
        | some p0 =>
          if p0.predictions.contains s then .ok ()
          else .error (.valueError "Subject not in assembler")
    match check with
    | .error e => .error e
    | .ok _ =>
      match planeCollect s st.planes [] with
      | .error e => .error e
      | .ok (acc, planes1) =>
        let merged : Dict String NArr := acc.map (fun kx => (kx.1, mean_merge_fn kx.2))
        let st1 : PlaneSubjectAssembler := ⟨planes1, some (r.erase s)⟩
        match merged.get? "__prediction" with
        | some a => .ok (.bare a, st1)
        | none => .ok (.dict merged, st1)

/-- The state of a `Subject2dAssembler` (default `id_entry='ids'`). -/
structure Subject2dAssembler : Type where
  predictions : Dict ℕ (Dict String NArr)
  subjectsReady : Finset ℕ

/-- A freshly constructed `Subject2dAssembler()`. -/
def Subject2dAssembler.init : Subject2dAssembler := ⟨[], ∅⟩

/-- The `for key in to_assemble` loop of `Subject2dAssembler.add_batch`
(lines 331-333): store each key's sample under the subject via
`setdefault`, and add the subject to the ready set inside this loop. -/
def s2dKeyLoop (s : ℕ) (idx : ℕ) :
    List (String × BatchArr) → Subject2dAssembler → Except PyErr Subject2dAssembler
  | [], st => .ok st
  | (k, ba) :: rest, st =>
    match ba.items.get? idx with
    | none => .error .indexError
    | some v =>
      let acc := (st.predictions.get? s).getD []
      s2dKeyLoop s idx rest
        ⟨st.predictions.insert s (acc.insert k v), insert s st.subjectsReady⟩

/-- The `for idx in range(...)` loop of `Subject2dAssembler.add_batch`
(lines 329-333). -/
def s2dSamples (tad : Dict String BatchArr) (ids : List ℕ) :
    List ℕ → Subject2dAssembler → Except PyErr Subject2dAssembler
  | [], st => .ok st
  | idx :: rest, st =>
    match ids.get? idx with
    | none => .error .indexError
    | some s =>
      match s2dKeyLoop s idx tad st with
      | .error e => .error e
      | .ok st1 => s2dSamples tad ids rest st1

/-- `Subject2dAssembler.add_batch` (lines 321-333) with the default
`id_entry` of `'ids'`. -/
def s2dAddBatch (ta : ToAssemble) (b : Batch) (lastBatch : Bool)
    (st : Subject2dAssembler) : Except PyErr Subject2dAssembler :=
  if b.ids = none then
    .error (.valueError "Subject2dAssembler requires ids to be in the batch")
  else
    s2dSamples ta.toDict (b.ids.getD []) (List.range (b.ids.getD []).length) st

/-- `Subject2dAssembler.get_assembled_subject` (lines 335-347): identical
logic to `SubjectAssembler.get_assembled_subject`. -/
def s2dGetAssembledSubject (st : Subject2dAssembler) (s : ℕ) :
    Except PyErr (AVal × Subject2dAssembler) :=
  if s ∉ st.subjectsReady ∧ ¬ st.predictions.contains s then
    .error (.valueError "Subject not in assembler")
  else
    match st.predictions.get? s with
    | none => .error .keyError
    | some assembled =>
      let st1 : Subject2dAssembler :=
        ⟨st.predictions.erase s, st.subjectsReady.erase s⟩
      match assembled.get? "__prediction" with
      | some a => .ok (.bare a, st1)
      | none => .ok (.dict assembled, st1)

namespace Dict

theorem get?_insert_self {K V : Type} [DecidableEq K] (d : Dict K V) (k : K) (v : V) :
    (d.insert k v).get? k = some v := by
  induction d with
  | nil => simp [insert, get?]
  | cons kv rest ih =>
    by_cases h : kv.1 = k
    · simp [insert, h, get?]
    · simp [insert, h, get?, ih]

theorem get?_insert_ne {K V : Type} [DecidableEq K] (d : Dict K V) (k k' : K) (v : V)
    (h : k' ≠ k) : (d.insert k v).get? k' = d.get? k' := by
  induction d with
  | nil => simp [insert, get?, Ne.symm h]
  | cons kv rest ih =>
    by_cases hk : kv.1 = k
    · subst hk
      simp [insert, get?, Ne.symm h, fun hh : kv.1 = k' => h (hh.symm)]
    · by_cases hk' : kv.1 = k'
      · simp [insert, hk, get?, hk', h]
      · simp [insert, hk, get?, hk', ih]

theorem insert_insert_same {K V : Type} [DecidableEq K] (d : Dict K V) (k : K) (v w : V) :
    (d.insert k v).insert k w = d.insert k w := by
  induction d with
  | nil => simp [insert]
  | cons kv rest ih =>
    by_cases h : kv.1 = k
    · simp [insert, h]
    · simp [insert, h, ih]

theorem get?_mem {K V : Type} [DecidableEq K] {d : Dict K V} {k : K} {v : V}
    (h : d.get? k = some v) : (k, v) ∈ d := by
  induction d with
  | nil => simp [get?] at h
  | cons kv rest ih =>
    by_cases hk : kv.1 = k
    · subst hk
      have hv : Dict.get? (kv :: rest) kv.1 = some kv.2 := by simp [Dict.get?]
      rw [hv] at h
      injection h with h
      subst h
      simp
    · simp only [get?, hk, if_false] at h
      exact List.mem_cons_of_mem _ (ih h)

theorem get?_eq_none {K V : Type} [DecidableEq K] (d : Dict K V) (k : K) :
    d.get? k = none ↔ k ∉ d.keys := by
  induction d with
  | nil => simp [get?, keys]
  | cons kv rest ih =>
    by_cases hk : kv.1 = k
    · simp [get?, hk, keys]
    · simp [get?, hk, keys, ih, Ne.symm hk]

theorem mem_keys_iff_contains {K V : Type} [DecidableEq K] (d : Dict K V) (k : K) :
    k ∈ d.keys ↔ d.contains k = true := by
  simp [Dict.contains, Option.isSome_iff_ne_none, ne_eq, Dict.get?_eq_none]

theorem get?_erase_self {K V : Type} [DecidableEq K] (d : Dict K V) (k : K)
    (hnd : d.keys.Nodup) : (d.erase k).get? k = none := by
  induction d with
  | nil => simp [erase, get?]
  | cons kv rest ih =>
    simp only [keys, List.map_cons, List.nodup_cons] at hnd
    by_cases hk : kv.1 = k
    · subst hk
      simp only [erase, if_pos rfl]
      rw [Dict.get?_eq_none]
      intro hmem
      exact hnd.1 (by simpa [Dict.keys] using hmem)
    · simp [erase, hk, get?, ih hnd.2]

end Dict

theorem mem_keysFinset {V : Type} (d : Dict ℕ V) (s : ℕ) :
    s ∈ keysFinset d ↔ d.contains s = true := by
  rw [keysFinset, List.mem_toFinset]
  exact Dict.mem_keys_iff_contains d s

/-- The key-writing loop never touches the ready set. -/
theorem writeKeys_ready (osf : OnSampleFn) (b : Batch) (idx : ℕ) (s : ℕ) :
    ∀ (l : List (String × BatchArr)) (st st' : SubjectAssembler),
      writeKeys osf b idx s l st = .ok st' → st'.subjectsReady = st.subjectsReady := by
  intro l
  induction l with
  | nil =>
    intro st st' h
    simp only [writeKeys] at h
    cases h
    rfl
  | cons kv rest ih =>
    intro st st' h
    obtain ⟨k, ba⟩ := kv
    simp only [writeKeys] at h
    split at h
    · cases h
    · split at h
      · cases h
      · split at h
        · cases h
        · split at h
          · cases h
          · split at h
            · cases h
            · rw [ih _ st' h]

/-- The key-writing loop never removes stored subjects. -/
theorem writeKeys_contains (osf : OnSampleFn) (b : Batch) (idx : ℕ) (s : ℕ) :
    ∀ (l : List (String × BatchArr)) (st st' : SubjectAssembler) (x : ℕ),
      writeKeys osf b idx s l st = .ok st' →
      st.predictions.contains x = true → st'.predictions.contains x = true := by
  intro l
  induction l with
  | nil =>
    intro st st' x h hx
    simp only [writeKeys] at h
    cases h
    exact hx
  | cons kv rest ih =>
    intro st st' x h hx
    obtain ⟨k, ba⟩ := kv
    simp only [writeKeys] at h
    split at h
    · cases h
    · split at h
      · cases h
      · split at h
        · cases h
        · split at h
          · cases h
          · split at h
            · cases h
            · refine ih _ _ _ h ?_
              by_cases hxs : x = s
              · subst hxs
                simp [Dict.contains, Dict.get?_insert_self]
              · simpa [Dict.contains, Dict.get?_insert_ne _ _ _ _ hxs] using hx

/-- C2: In the BasicAssembler, a chunk whose subject has no accumulator
triggers, when the store is non-empty, a flush that marks exactly the
previously stored identifiers ready (not the new one); when the store is
empty no identifier is marked ready. -/
theorem C2_flush_on_new_subject
    (osf : OnSampleFn) (tad : Dict String BatchArr) (b : Batch) (idx : ℕ)
    (st st' : SubjectAssembler) (sids : List ℕ) (s : ℕ)
    (hb : b.subjectIndex = some sids) (hs : sids.get? idx = some s)
    (hnew : st.predictions.contains s = false)
    (hok : addSample osf tad b idx st = .ok st') :
    (st.predictions ≠ [] →
      st'.subjectsReady = keysFinset st.predictions ∧ s ∉ st'.subjectsReady)
    ∧ (st.predictions = [] → st'.subjectsReady = st.subjectsReady) := by
  simp only [addSample, hb, hs] at hok
  by_cases hemp : st.predictions = []
  · refine ⟨fun hne => absurd hemp hne, fun _ => ?_⟩
    have hc1 : ¬ st.predictions.contains s = true ∧ st.predictions.isEmpty = true :=
      ⟨by simp [hnew], by simp [hemp]⟩
    rw [if_pos hc1] at hok
    cases hini : initNewSubject b idx tad with
    | error e =>
      rw [hini] at hok
      cases hok
    | ok acc =>
      rw [hini] at hok
      rw [writeKeys_ready osf b idx s tad _ st' hok]
  · refine ⟨fun _ => ?_, fun he => absurd he hemp⟩
    have hie : st.predictions.isEmpty = false := by
      cases hpl : st.predictions with
      | nil => exact absurd hpl hemp
      | cons a l => simp [hpl]
    have hc1 : ¬ (¬ st.predictions.contains s = true ∧ st.predictions.isEmpty = true) := by
      simp [hie]
    rw [if_neg hc1] at hok
    have hc2 : ¬ st.predictions.contains s = true := by simp [hnew]
    rw [if_pos hc2] at hok
    cases hini : initNewSubject b idx tad with
    | error e =>
      rw [hini] at hok
      cases hok
    | ok acc =>
      rw [hini] at hok
      rw [writeKeys_ready osf b idx s tad _ st' hok]
      refine ⟨rfl, ?_⟩
      rw [mem_keysFinset]
      simp [hnew]

/-- C3: after `add_batch` with `last_batch = True`, every identifier with a
live accumulator is in the ready set. -/
theorem C3_last_batch_flushes_all
    (osf : OnSampleFn) (ta : ToAssemble) (b : Batch) (st st' : SubjectAssembler)
    (hok : SubjectAssembler.addBatch osf ta b true st = .ok st') :
    ∀ s : ℕ, st'.predictions.contains s = true → s ∈ st'.subjectsReady := by
  intro s hs
  simp only [SubjectAssembler.addBatch] at hok
  split at hok
  · cases hok
  · split at hok
    · cases hok
    · split at hok
      · cases hok
      · split at hok
        · cases hok
        · rename_i st1 heq
          simp only [if_true, Except.ok.injEq] at hok
          subst hok
          simp only [SubjectAssembler.endFlush] at hs ⊢
          rw [mem_keysFinset]
          exact hs

/-- C4: retrieval raises the state error exactly when the identifier is in
neither the ready set nor the store; success removes it from both (so a
second call fails); an identifier in the store but not ready is still
retrievable. -/
theorem C4_get_assembled_state_error
    (st : SubjectAssembler) (s : ℕ) (hnd : st.predictions.keys.Nodup) :
    ((∃ msg, st.getAssembledSubject s = .error (.valueError msg)) ↔
      (s ∉ st.subjectsReady ∧ st.predictions.contains s = false))
    ∧ (∀ v st', st.getAssembledSubject s = .ok (v, st') →
        st'.predictions.contains s = false ∧ s ∉ st'.subjectsReady ∧
        ∃ msg, st'.getAssembledSubject s = .error (.valueError msg))
    ∧ (st.predictions.contains s = true →
        ∃ v st', st.getAssembledSubject s = .ok (v, st')) := by
  refine ⟨⟨?_, ?_⟩, ?_, ?_⟩
  · rintro ⟨msg, hmsg⟩
    by_cases hc : s ∉ st.subjectsReady ∧ ¬ st.predictions.contains s = true
    · exact ⟨hc.1, by simpa using hc.2⟩
    · exfalso
      rw [SubjectAssembler.getAssembledSubject, if_neg hc] at hmsg
      cases hacc : st.predictions.get? s with
      | none =>
        simp only [hacc] at hmsg
        exact absurd hmsg (by simp)
      | some acc =>
        simp only [hacc] at hmsg
        cases hp : acc.get? "__prediction" with
        | none =>
          simp only [hp] at hmsg
          exact absurd hmsg (by simp)
        | some a =>
          simp only [hp] at hmsg
          exact absurd hmsg (by simp)
  · rintro ⟨h1, h2⟩
    refine ⟨"Subject not in assembler", ?_⟩
    rw [SubjectAssembler.getAssembledSubject, if_pos ⟨h1, by simp [h2]⟩]
  · intro v st' hok
    rw [SubjectAssembler.getAssembledSubject] at hok
    split at hok
    · cases hok
    · rename_i hc
      cases hacc : st.predictions.get? s with
      | none =>
        simp only [hacc] at hok
        exact absurd hok (by simp)
      | some acc =>
        have hst' : st' = ⟨st.predictions.erase s, st.subjectsReady.erase s⟩ := by
          cases hp : acc.get? "__prediction" with
          | none =>
            simp only [hacc, hp, Except.ok.injEq, Prod.mk.injEq] at hok
            exact hok.2.symm
          | some a =>
            simp only [hacc, hp, Except.ok.injEq, Prod.mk.injEq] at hok
            exact hok.2.symm
        have hcont : st'.predictions.contains s = false := by
          rw [hst']
          simp [Dict.contains, Dict.get?_erase_self _ _ hnd]
        have hready : s ∉ st'.subjectsReady := by
          rw [hst']
          exact Finset.not_mem_erase s st.subjectsReady
        refine ⟨hcont, hready, "Subject not in assembler", ?_⟩
        rw [SubjectAssembler.getAssembledSubject, if_pos ⟨hready, by simp [hcont]⟩]
  · intro hc
    have hns : ¬ (s ∉ st.subjectsReady ∧ ¬ st.predictions.contains s = true) := by
      simp [hc]
    rw [SubjectAssembler.getAssembledSubject, if_neg hns]
    rcases Option.isSome_iff_exists.mp (by simpa [Dict.contains] using hc) with ⟨acc, hacc⟩
    simp only [hacc]
    cases hp : acc.get? "__prediction" with
    | none => simp only [hp]; exact ⟨_, _, rfl⟩
    | some a => simp only [hp]; exact ⟨_, _, rfl⟩

/-- C10: a caller-supplied dict is used verbatim (no rewrapping), and
retrieval returns only the bare array stored under the reserved key
`__prediction` whenever that key is present, discarding every other
accumulated key. -/
theorem C10_prediction_key_shadows
    (d : Dict String BatchArr) (st : SubjectAssembler) (s : ℕ)
    (acc : Dict String NArr) (a w : NArr) (k : String)
    (hacc : st.predictions.get? s = some acc)
    (hp : acc.get? "__prediction" = some a)
    (hk : k ≠ "__prediction") (hw : acc.get? k = some w) :
    ToAssemble.toDict (.dict d) = d ∧
    ∃ st', st.getAssembledSubject s = .ok (.bare a, st') := by
  refine ⟨rfl, ?_⟩
  have hcont : st.predictions.contains s = true := by
    simp [Dict.contains, hacc]
  have hns : ¬ (s ∉ st.subjectsReady ∧ ¬ st.predictions.contains s = true) := by
    simp [hcont]
  rw [SubjectAssembler.getAssembledSubject, if_neg hns]
  simp only [hacc, hp]
  exact ⟨_, rfl⟩

/-- A size-correction strategy that passes data through unchanged, usable
to exercise the plane assembler. -/
def idSizeCorrection : SizeCorrectionFn := fun _ _ => default_sample_fn

/-- A batch that carries index expressions and shapes but no subject
identifiers. -/
def missingSidBatch : Batch :=
  { indexExpr := some [[Selector.idx 0]], shape := some [[2]] }

/-- A one-chunk network output. -/
def missingSidArr : BatchArr := ⟨[1, 1], [⟨[1], fun _ => 1⟩]⟩

/-- C8 counterexample: `PlaneSubjectAssembler.add_batch` on a batch lacking
subject identifiers (but carrying index expressions and shapes) raises
KeyError from inside sample processing, not the claimed configuration
ValueError. -/
theorem C8_counterexample :
    planeAddBatch idSizeCorrection (.bare missingSidArr) missingSidBatch false
      PlaneSubjectAssembler.init = .error .keyError ∧
    ∀ msg, PyErr.keyError ≠ PyErr.valueError msg := by
  refine ⟨rfl, ?_⟩
  intro msg h
  cases h

/-- C8 (amended): `SubjectAssembler.add_batch` raises the configuration
ValueError whenever any of the three metadata fields is absent;
`PlaneSubjectAssembler.add_batch` does so only for absent index
expressions or target shapes (it does not validate subject identifiers). -/
theorem C8_metadata_validation :
    (∀ (osf : OnSampleFn) (ta : ToAssemble) (b : Batch) (last : Bool) (st : SubjectAssembler),
      (b.subjectIndex = none ∨ b.indexExpr = none ∨ b.shape = none) →
      ∃ msg, SubjectAssembler.addBatch osf ta b last st = .error (.valueError msg))
    ∧ (∀ (scf : SizeCorrectionFn) (ta : ToAssemble) (b : Batch) (last : Bool)
        (st : PlaneSubjectAssembler),
      (b.indexExpr = none ∨ b.shape = none) →
      ∃ msg, planeAddBatch scf ta b last st = .error (.valueError msg)) := by
  constructor
  · intro osf ta b last st hmiss
    rw [SubjectAssembler.addBatch]
    by_cases h1 : b.subjectIndex = none
    · rw [if_pos h1]
      exact ⟨_, rfl⟩
    · rw [if_neg h1]
      by_cases h2 : b.indexExpr = none
      · rw [if_pos h2]
        exact ⟨_, rfl⟩
      · rw [if_neg h2]
        have h3 : b.shape = none := by
          rcases hmiss with h | h | h
          · exact absurd h h1
          · exact absurd h h2
          · exact h
        rw [if_pos h3]
        exact ⟨_, rfl⟩
  · intro scf ta b last st hmiss
    rw [planeAddBatch]
    by_cases h2 : b.indexExpr = none
    · rw [if_pos h2]
      exact ⟨_, rfl⟩
    · rw [if_neg h2]
      have h3 : b.shape = none := by
        rcases hmiss with h | h
        · exact absurd h h2
        · exact h
      rw [if_pos h3]
      exact ⟨_, rfl⟩

/-- Membership in a list yields a position retrievable with `get?`. -/
theorem exists_get?_of_mem {α : Type} {l : List α} {x : α} (h : x ∈ l) :
    ∃ i, i < l.length ∧ l.get? i = some x := by
  induction l with
  | nil => cases h
  | cons a rest ih =>
    rcases List.mem_cons.mp h with h1 | h2
    · exact ⟨0, Nat.succ_pos _, by simp [h1]⟩
    · rcases ih h2 with ⟨i, hi, hg⟩
      exact ⟨i + 1, Nat.succ_lt_succ hi, by simpa using hg⟩

/-- The FlatAssembler key loop only grows the ready set. -/
theorem s2dKeyLoop_ready_mono (s : ℕ) (idx : ℕ) :
    ∀ (l : List (String × BatchArr)) (st st' : Subject2dAssembler),
      s2dKeyLoop s idx l st = .ok st' → st.subjectsReady ⊆ st'.subjectsReady := by
  intro l
  induction l with
  | nil =>
    intro st st' h
    cases h
    exact fun _ hx => hx
  | cons kv rest ih =>
    intro st st' h
    obtain ⟨k, ba⟩ := kv
    simp only [s2dKeyLoop] at h
    split at h
    · cases h
    · intro x hx
      exact ih _ _ h (Finset.mem_insert_of_mem hx)

/-- The FlatAssembler key loop marks the subject ready as soon as there is
at least one key. -/
theorem s2dKeyLoop_marks_ready (s : ℕ) (idx : ℕ)
    (kv : String × BatchArr) (rest : List (String × BatchArr))
    (st st' : Subject2dAssembler)
    (h : s2dKeyLoop s idx (kv :: rest) st = .ok st') : s ∈ st'.subjectsReady := by
  obtain ⟨k, ba⟩ := kv
  simp only [s2dKeyLoop] at h
  split at h
  · cases h
  · exact s2dKeyLoop_ready_mono s idx rest _ _ h (Finset.mem_insert_self s _)

/-- The FlatAssembler sample loop only grows the ready set. -/
theorem s2dSamples_ready_mono (tad : Dict String BatchArr) (ids : List ℕ) :
    ∀ (idxs : List ℕ) (st st' : Subject2dAssembler),
      s2dSamples tad ids idxs st = .ok st' → st.subjectsReady ⊆ st'.subjectsReady := by
  intro idxs
  induction idxs with
  | nil =>
    intro st st' h
    cases h
    exact fun _ hx => hx
  | cons idx rest ih =>
    intro st st' h
    simp only [s2dSamples] at h
    split at h
    · cases h
    · split at h
      · cases h
      · rename_i st1 _ _ hkl
        intro x hx
        exact ih _ _ h (s2dKeyLoop_ready_mono _ _ tad _ _ hkl hx)

/-- Every subject indexed by a processed position is ready after the
FlatAssembler sample loop, provided at least one key is present. -/
theorem s2dSamples_marks_ready (tad : Dict String BatchArr) (ids : List ℕ)
    (hne : tad ≠ []) :
    ∀ (idxs : List ℕ) (st st' : Subject2dAssembler) (idx : ℕ) (s : ℕ),
      idx ∈ idxs → ids.get? idx = some s →
      s2dSamples tad ids idxs st = .ok st' → s ∈ st'.subjectsReady := by
  intro idxs
  induction idxs with
  | nil =>
    intro st st' idx s hidx
    cases hidx
  | cons idx0 rest ih =>
    intro st st' idx s hidx hget h
    simp only [s2dSamples] at h
    split at h
    · cases h
    · rename_i s0 hs0
      split at h
      · cases h
      · rename_i st1 _ _ hkl
        rcases List.mem_cons.mp hidx with h1 | h2
        · subst h1
          rw [hget] at hs0
          injection hs0 with hs0
          subst hs0
          cases htad : tad with
          | nil => exact absurd htad hne
          | cons kv rest2 =>
            rw [htad] at hkl
            exact s2dSamples_ready_mono tad ids rest _ _ h
              (s2dKeyLoop_marks_ready _ _ kv rest2 _ _ hkl)
        · exact ih _ _ idx s h2 hget h

/-- A batch naming one subject, used with an empty chunk mapping. -/
def emptyKeysBatch : Batch := { ids := some [5] }

/-- C9 counterexample: `Subject2dAssembler.add_batch` with an empty chunk
dict succeeds but leaves the batch's identifier (5) outside the ready set,
because the `ready.add` call sits inside the per-key loop. -/
theorem C9_counterexample :
    s2dAddBatch (.dict []) emptyKeysBatch false Subject2dAssembler.init
      = .ok Subject2dAssembler.init ∧
    (5 : ℕ) ∈ (emptyKeysBatch.ids.getD []) ∧
    (5 : ℕ) ∉ Subject2dAssembler.init.subjectsReady := by
  refine ⟨rfl, by simp [emptyKeysBatch], by simp [Subject2dAssembler.init]⟩

/-- A batch with two distinct subject identifiers. -/
def twoSubjectBatch : Batch := { ids := some [1, 2] }

/-- Two whole-subject chunks in one batch. -/
def twoSubjectArr : BatchArr := ⟨[2, 1], [⟨[1], fun _ => 3⟩, ⟨[1], fun _ => 4⟩]⟩

/-- C9 (amended): for the FlatAssembler, provided the chunk mapping has at
least one key (a bare array counts as one), every identifier in the batch
is immediately ready regardless of the last-batch flag; a repeated chunk
for an identifier overwrites that key in its stored mapping; and two
identifiers arriving in one batch without the end-of-stream flag are both
immediately ready and independently retrievable. -/
theorem C9_flat_assembler :
    (∀ (ta : ToAssemble) (b : Batch) (last : Bool) (st st' : Subject2dAssembler)
        (l : List ℕ),
      b.ids = some l → ta.toDict ≠ [] →
      s2dAddBatch ta b last st = .ok st' → ∀ s ∈ l, s ∈ st'.subjectsReady)
    ∧ (∀ (k : String) (ba : BatchArr) (b : Batch) (last : Bool)
        (st st' : Subject2dAssembler) (s : ℕ) (v : NArr),
      b.ids = some [s] → ba.items.get? 0 = some v →
      s2dAddBatch (.dict [(k, ba)]) b last st = .ok st' →
      st'.predictions.get? s = some (((st.predictions.get? s).getD []).insert k v))
    ∧ (∃ st1 v1 st2 v2 st3,
      s2dAddBatch (.bare twoSubjectArr) twoSubjectBatch false Subject2dAssembler.init
        = .ok st1 ∧
      1 ∈ st1.subjectsReady ∧ 2 ∈ st1.subjectsReady ∧
      s2dGetAssembledSubject st1 1 = .ok (v1, st2) ∧
      s2dGetAssembledSubject st2 2 = .ok (v2, st3)) := by
  refine ⟨?_, ?_, ?_⟩
  · intro ta b last st st' l hids hne hok s hs
    rw [s2dAddBatch] at hok
    rw [if_neg (by simp [hids])] at hok
    rcases exists_get?_of_mem hs with ⟨i, hi, hg⟩
    have hg' : (b.ids.getD []).get? i = some s := by rw [hids]; exact hg
    refine s2dSamples_marks_ready ta.toDict (b.ids.getD []) hne _ st st' i s ?_ hg' hok
    rw [List.mem_range, hids]
    exact hi
  · intro k ba b last st st' s v hids hv hok
    rw [s2dAddBatch] at hok
    rw [if_neg (by simp [hids])] at hok
    rw [hids] at hok
    simp only [Option.getD_some, List.length_cons, List.length_nil, List.range_succ,
      List.range_zero, List.nil_append, s2dSamples, List.get?] at hok
    simp only [s2dKeyLoop, ToAssemble.toDict, hv, s2dSamples] at hok
    injection hok with hok
    subst hok
    simp [Dict.get?_insert_self]
  · exact ⟨_, _, _, _, _, rfl, by decide, by decide, rfl, rfl⟩

/-- `findIdx?` returns the first index whose element satisfies the
predicate. -/
theorem findIdx?_first {α : Type} (p : α → Bool) :
    ∀ (l : List α) (k : ℕ) (x : α), l.get? k = some x → p x = true →
      (∀ j, j < k → ∃ y, l.get? j = some y ∧ p y = false) →
      l.findIdx? p = some k := by
  intro l
  induction l with
  | nil =>
    intro k x hk _ _
    simp at hk
  | cons a rest ih =>
    intro k x hk hx hbefore
    cases k with
    | zero =>
      simp only [List.get?] at hk
      injection hk with hk
      subst hk
      simp [List.findIdx?_cons, hx]
    | succ k' =>
      obtain ⟨y, hy, hpy⟩ := hbefore 0 (Nat.succ_pos _)
      simp only [List.get?] at hy
      injection hy with hy
      subst hy
      rw [List.findIdx?_cons, if_neg (by simp [hpy]), List.findIdx?_succ]
      have hrest : rest.findIdx? p = some k' :=
        ih k' x hk hx (fun j hj => hbefore (j + 1) (Nat.succ_lt_succ hj))
      rw [hrest]
      rfl

/-- C6: the plane dimension is the first dimension whose selector is not
full-range, and the required in-plane shape replaces that dimension's size
with the bounded range's width, or removes the dimension for a single
index. -/
theorem C6_plane_dimension_and_shape
    (e : IndexExpr) (k : ℕ) (sel : Selector) (sh : List ℕ)
    (hk : e.get? k = some sel) (hsel : sel ≠ Selector.all)
    (hfirst : ∀ j, j < k → e.get? j = some Selector.all)
    (hlen : k < sh.length) :
    getPlaneDimension e = some k
    ∧ (∀ a b, sel = Selector.rng a b →
        requiredPlaneShape sh k e =
          .ok ((sh.map (fun n => (n : ℤ))).set k ((b : ℤ) - (a : ℤ))))
    ∧ (∀ i, sel = Selector.idx i →
        requiredPlaneShape sh k e = .ok ((sh.map (fun n => (n : ℤ))).eraseIdx k)) := by
  refine ⟨?_, ?_, ?_⟩
  · apply findIdx?_first _ e k sel hk
    · cases sel with
      | all => exact absurd rfl hsel
      | rng a b => rfl
      | idx i => rfl
    · intro j hj
      exact ⟨Selector.all, hfirst j hj, rfl⟩
  · intro a b hab
    subst hab
    have hidx : (getIndexing e)[k]? = some (PyIndex.tup a b) := by
      rw [getIndexing, List.getElem?_map, ← List.get?_eq_getElem?, hk]
      rfl
    simp [requiredPlaneShape, hidx, hlen]
  · intro i hi
    subst hi
    have hidx : (getIndexing e)[k]? = some (PyIndex.int i) := by
      rw [getIndexing, List.getElem?_map, ← List.get?_eq_getElem?, hk]
      rfl
    simp [requiredPlaneShape, hidx, hlen]

/-- Folding intersection over a non-`none` accumulator stays `some`. -/
theorem foldl_inter_some (ps : Dict (Option ℕ) SubjectAssembler) : ∀ (r : Finset ℕ),
    ps.foldl (fun acc kv =>
        match acc with
        | none => some kv.2.subjectsReady
        | some rr => some (rr ∩ kv.2.subjectsReady)) (some r)
      = some (ps.foldl (fun rr kv => rr ∩ kv.2.subjectsReady) r) := by
  induction ps with
  | nil => intro r; rfl
  | cons kv rest ih => intro r; exact ih (r ∩ kv.2.subjectsReady)

/-- Membership in the intersection fold. -/
theorem mem_foldl_inter (ps : Dict (Option ℕ) SubjectAssembler) : ∀ (r : Finset ℕ) (x : ℕ),
    x ∈ ps.foldl (fun rr kv => rr ∩ kv.2.subjectsReady) r ↔
      x ∈ r ∧ ∀ kv ∈ ps, x ∈ kv.2.subjectsReady := by
  induction ps with
  | nil => intro r x; simp
  | cons kv rest ih =>
    intro r x
    rw [List.foldl_cons, ih]
    simp only [Finset.mem_inter, List.mem_cons]
    constructor
    · rintro ⟨⟨h1, h2⟩, h3⟩
      exact ⟨h1, fun kv' hkv' => by
        rcases hkv' with h | h
        · subst h; exact h2
        · exact h3 kv' h⟩
    · rintro ⟨h1, h2⟩
      exact ⟨⟨h1, h2 kv (Or.inl rfl)⟩, fun kv' h => h2 kv' (Or.inr h)⟩

/-- The readiness recomputation over a non-empty plane dict is the
intersection of all plane ready sets. -/
theorem interFold_spec (ps : Dict (Option ℕ) SubjectAssembler) (hne : ps ≠ []) :
    ∃ S, interFold ps = some S ∧
      ∀ x, x ∈ S ↔ ∀ kv ∈ ps, x ∈ kv.2.subjectsReady := by
  cases ps with
  | nil => exact absurd rfl hne
  | cons kv rest =>
    refine ⟨rest.foldl (fun rr kv' => rr ∩ kv'.2.subjectsReady) kv.2.subjectsReady, ?_, ?_⟩
    · rw [interFold, List.foldl_cons]
      exact foldl_inter_some rest kv.2.subjectsReady
    · intro x
      rw [mem_foldl_inter]
      simp only [List.mem_cons]
      constructor
      · rintro ⟨h1, h2⟩ kv' hkv'
        rcases hkv' with h | h
        · subst h; exact h1
        · exact h2 kv' h
      · intro h
        exact ⟨h kv (Or.inl rfl), fun kv' hkv' => h kv' (Or.inr hkv')⟩

/-- C5: after every `PlaneSubjectAssembler.add_batch`, the composite ready
set is recomputed as the intersection of the plane sub-assemblers' ready
sets, with the end-of-stream flush forwarded to every plane beforehand. -/
theorem C5_plane_ready_intersection
    (scf : SizeCorrectionFn) (ta : ToAssemble) (b : Batch) (last : Bool)
    (st st' : PlaneSubjectAssembler)
    (hok : planeAddBatch scf ta b last st = .ok st') :
    (st'.planes ≠ [] → ∃ S, st'.subjectsReady = some S ∧
      ∀ x, x ∈ S ↔ ∀ kv ∈ st'.planes, x ∈ kv.2.subjectsReady)
    ∧ (last = true →
      ∀ kv ∈ st'.planes, kv.2.subjectsReady = keysFinset kv.2.predictions) := by
  rw [planeAddBatch] at hok
  split at hok
  · cases hok
  · split at hok
    · cases hok
    · split at hok
      · cases hok
      · rename_i planes1 heq
        injection hok with hok
        subst hok
        constructor
        · intro hne
          exact interFold_spec _ hne
        · intro hlast kv hkv
          subst hlast
          simp only [if_pos rfl] at hkv
          rcases List.mem_map.mp hkv with ⟨kv', _, rfl⟩
          rfl

/-- The array stored for subject `s` under the implicit key in a plane's
sub-assembler. -/
def planeStored (s : ℕ) (kv : Option ℕ × SubjectAssembler) : NArr :=
  (((kv.2.predictions.get? s).getD []).get? "__prediction").getD (numpy_zeros [])

/-- A sub-assembler holding a singleton implicit-key accumulator for `s`
pops it as a bare array. -/
theorem subGet_bare (asm : SubjectAssembler) (s : ℕ) (a : NArr)
    (h : asm.predictions.get? s = some [("__prediction", a)]) :
    asm.getAssembledSubject s =
      .ok (.bare a, ⟨asm.predictions.erase s, asm.subjectsReady.erase s⟩) := by
  rw [SubjectAssembler.getAssembledSubject,
    if_neg (by simp [Dict.contains, h])]
  simp only [h]
  rfl

/-- The per-plane collect loop accumulates the implicit-key arrays of all
planes in order. -/
theorem planeCollect_bare (s : ℕ) :
    ∀ (planes : List (Option ℕ × SubjectAssembler)) (xs : List NArr),
      (∀ kv ∈ planes, kv.2.predictions.get? s = some [("__prediction", planeStored s kv)]) →
      ∃ ps', planeCollect s planes [("__prediction", xs)] =
        .ok ([("__prediction", xs ++ planes.map (planeStored s))], ps') := by
  intro planes
  induction planes with
  | nil =>
    intro xs _
    exact ⟨[], by simp [planeCollect]⟩
  | cons kv rest ih =>
    intro xs hyp
    have hkv := hyp kv (List.mem_cons_self kv rest)
    rw [planeCollect, subGet_bare kv.2 s (planeStored s kv) hkv]
    have hacc1 : (Dict.insert [("__prediction", xs)] "__prediction"
        (((Dict.get? [("__prediction", xs)] "__prediction").getD []) ++ [planeStored s kv]))
        = [("__prediction", xs ++ [planeStored s kv])] := by rfl
    rcases ih (xs ++ [planeStored s kv])
        (fun kv' h => hyp kv' (List.mem_cons_of_mem kv h)) with ⟨ps', hps'⟩
    simp only [List.foldl_cons, List.foldl_nil]
    rw [hacc1, hps']
    exact ⟨(kv.1, ⟨kv.2.predictions.erase s, kv.2.subjectsReady.erase s⟩) :: ps',
      by simp [List.map_cons, List.append_assoc]⟩

/-- Starting the collect loop from an empty accumulator over a non-empty
plane list. -/
theorem planeCollect_bare_top (s : ℕ)
    (planes : List (Option ℕ × SubjectAssembler)) (hne : planes ≠ [])
    (hyp : ∀ kv ∈ planes, kv.2.predictions.get? s = some [("__prediction", planeStored s kv)]) :
    ∃ ps', planeCollect s planes [] =
      .ok ([("__prediction", planes.map (planeStored s))], ps') := by
  cases planes with
  | nil => exact absurd rfl hne
  | cons kv rest =>
    have hkv := hyp kv (List.mem_cons_self kv rest)
    rw [planeCollect, subGet_bare kv.2 s (planeStored s kv) hkv]
    have hacc1 : (Dict.insert ([] : Dict String (List NArr)) "__prediction"
        (((Dict.get? ([] : Dict String (List NArr)) "__prediction").getD []) ++ [planeStored s kv]))
        = [("__prediction", [planeStored s kv])] := by rfl
    rcases planeCollect_bare s rest [planeStored s kv]
        (fun kv' h => hyp kv' (List.mem_cons_of_mem kv h)) with ⟨ps', hps'⟩
    simp only [List.foldl_cons, List.foldl_nil]
    rw [hacc1, hps']
    exact ⟨(kv.1, ⟨kv.2.predictions.erase s, kv.2.subjectsReady.erase s⟩) :: ps',
      by simp [List.map_cons]⟩

/-- The array stored for subject `s` under key `k` in a plane's
sub-assembler. -/
def planeVal (s : ℕ) (k : String) (kv : Option ℕ × SubjectAssembler) : NArr :=
  (((kv.2.predictions.get? s).getD []).get? k).getD (numpy_zeros [])

/-- A sub-assembler whose accumulator for `s` lacks the implicit key pops
it as the key mapping itself. -/
theorem subGet_dict (asm : SubjectAssembler) (s : ℕ) (acc : Dict String NArr)
    (hacc : asm.predictions.get? s = some acc)
    (hnp : acc.get? "__prediction" = none) :
    asm.getAssembledSubject s =
      .ok (.dict acc, ⟨asm.predictions.erase s, asm.subjectsReady.erase s⟩) := by
  rw [SubjectAssembler.getAssembledSubject,
    if_neg (by simp [Dict.contains, hacc])]
  simp only [hacc, hnp]

/-- Lookup misses on a key-indexed map built from keys not containing it. -/
theorem get?_map_keys {α : Type} (ks : List String) (f : String → α) (k : String)
    (hk : k ∉ ks) : Dict.get? (ks.map (fun k' => (k', f k'))) k = none := by
  rw [Dict.get?_eq_none]
  intro hmem
  apply hk
  have hkeys : Dict.keys (ks.map (fun k' => (k', f k'))) = ks := by
    rw [Dict.keys, List.map_map]
    exact List.map_id' ks
  rwa [hkeys] at hmem

/-- The per-key append fold passes over an accumulator head whose key none
of the entries carries. -/
theorem collect_foldl_head (h : String × List NArr) (kvs : List (String × NArr)) :
    ∀ (acc : Dict String (List NArr)), (∀ kx ∈ kvs, kx.1 ≠ h.1) →
    kvs.foldl (fun acc2 kx =>
        Dict.insert acc2 kx.1 ((Dict.get? acc2 kx.1).getD [] ++ [kx.2])) (h :: acc)
      = h :: kvs.foldl (fun acc2 kx =>
          Dict.insert acc2 kx.1 ((Dict.get? acc2 kx.1).getD [] ++ [kx.2])) acc := by
  induction kvs with
  | nil =>
    intro acc _
    rfl
  | cons kx rest ih =>
    intro acc hne
    have hke : ¬ h.1 = kx.1 := fun hh => hne kx (List.mem_cons_self _ _) hh.symm
    simp only [List.foldl_cons, Dict.get?, Dict.insert, hke, if_false]
    exact ih _ (fun kx' hk' => hne kx' (List.mem_cons_of_mem _ hk'))

/-- The per-key append fold over matching key-indexed maps appends each
key's value. -/
theorem collect_foldl_map (ks : List String) (v : String → NArr) :
    ∀ (g : String → List NArr), ks.Nodup →
    (ks.map (fun k => (k, v k))).foldl (fun acc2 kx =>
        Dict.insert acc2 kx.1 ((Dict.get? acc2 kx.1).getD [] ++ [kx.2]))
      (ks.map (fun k => (k, g k)))
    = ks.map (fun k => (k, g k ++ [v k])) := by
  induction ks with
  | nil =>
    intro g _
    rfl
  | cons k0 krest ih =>
    intro g hnd
    rw [List.nodup_cons] at hnd
    simp only [List.map_cons, List.foldl_cons]
    have hg0 : Dict.get? ((k0, g k0) :: List.map (fun k => (k, g k)) krest) k0
        = some (g k0) := by
      simp [Dict.get?]
    have hi0 : Dict.insert ((k0, g k0) :: List.map (fun k => (k, g k)) krest) k0
        (g k0 ++ [v k0])
        = (k0, g k0 ++ [v k0]) :: List.map (fun k => (k, g k)) krest := by
      simp [Dict.insert]
    rw [hg0, Option.getD_some, hi0]
    rw [collect_foldl_head (k0, g k0 ++ [v k0]) (krest.map (fun k => (k, v k))) _
      (fun kx hkx => by
        rcases List.mem_map.mp hkx with ⟨k, hk, hke⟩
        subst hke
        intro hh
        have hh2 : k = k0 := hh
        exact hnd.1 (hh2 ▸ hk))]
    rw [ih g hnd.2]

/-- The per-key append fold over a key-indexed map, starting from an empty
accumulator, produces singleton lists in key order. -/
theorem collect_foldl_nil (ks : List String) (v : String → NArr) : ks.Nodup →
    (ks.map (fun k => (k, v k))).foldl (fun acc2 kx =>
        Dict.insert acc2 kx.1 ((Dict.get? acc2 kx.1).getD [] ++ [kx.2])) []
    = ks.map (fun k => (k, [v k])) := by
  induction ks with
  | nil =>
    intro _
    rfl
  | cons k0 krest ih =>
    intro hnd
    rw [List.nodup_cons] at hnd
    simp only [List.map_cons, List.foldl_cons]
    have hg0 : Dict.get? ([] : Dict String (List NArr)) k0 = none := rfl
    have hi0 : Dict.insert ([] : Dict String (List NArr)) k0 [v k0] = [(k0, [v k0])] := rfl
    rw [hg0, Option.getD_none, List.nil_append, hi0]
    rw [collect_foldl_head (k0, [v k0]) (krest.map (fun k => (k, v k))) _
      (fun kx hkx => by
        rcases List.mem_map.mp hkx with ⟨k, hk, hke⟩
        subst hke
        intro hh
        have hh2 : k = k0 := hh
        exact hnd.1 (hh2 ▸ hk))]
    rw [ih hnd.2]

/-- The per-plane collect loop over dict accumulators sharing the key list
`ks` (implicit key absent) appends, per key, each plane's array in plane
order. -/
theorem planeCollect_dict (s : ℕ) (ks : List String) (hnd : ks.Nodup)
    (hnp : "__prediction" ∉ ks) :
    ∀ (planes : List (Option ℕ × SubjectAssembler)) (g : String → List NArr),
      (∀ kv ∈ planes,
        kv.2.predictions.get? s = some (ks.map (fun k => (k, planeVal s k kv)))) →
      ∃ ps', planeCollect s planes (ks.map (fun k => (k, g k))) =
        .ok (ks.map (fun k => (k, g k ++ planes.map (planeVal s k))), ps') := by
  intro planes
  induction planes with
  | nil =>
    intro g _
    exact ⟨[], by simp [planeCollect]⟩
  | cons kv rest ih =>
    intro g hyp
    have hkv := hyp kv (List.mem_cons_self kv rest)
    rw [planeCollect, subGet_dict kv.2 s _ hkv (get?_map_keys ks _ _ hnp)]
    rcases ih (fun k => g k ++ [planeVal s k kv])
        (fun kv' h => hyp kv' (List.mem_cons_of_mem kv h)) with ⟨ps', hps'⟩
    simp only [collect_foldl_map ks (fun k => planeVal s k kv) g hnd, hps']
    refine ⟨(kv.1, ⟨kv.2.predictions.erase s, kv.2.subjectsReady.erase s⟩) :: ps', ?_⟩
    simp [List.map_cons, List.append_assoc]

/-- Starting the dict-accumulator collect loop from an empty accumulator
over a non-empty plane list. -/
theorem planeCollect_dict_top (s : ℕ) (ks : List String) (hnd : ks.Nodup)
    (hnp : "__prediction" ∉ ks)
    (planes : List (Option ℕ × SubjectAssembler)) (hne : planes ≠ [])
    (hyp : ∀ kv ∈ planes,
      kv.2.predictions.get? s = some (ks.map (fun k => (k, planeVal s k kv)))) :
    ∃ ps', planeCollect s planes [] =
      .ok (ks.map (fun k => (k, planes.map (planeVal s k))), ps') := by
  cases planes with
  | nil => exact absurd rfl hne
  | cons kv rest =>
    have hkv := hyp kv (List.mem_cons_self kv rest)
    rw [planeCollect, subGet_dict kv.2 s _ hkv (get?_map_keys ks _ _ hnp)]
    rcases planeCollect_dict s ks hnd hnp rest (fun k => [planeVal s k kv])
        (fun kv' h => hyp kv' (List.mem_cons_of_mem kv h)) with ⟨ps', hps'⟩
    simp only [collect_foldl_nil ks (fun k => planeVal s k kv) hnd, hps']
    refine ⟨(kv.1, ⟨kv.2.predictions.erase s, kv.2.subjectsReady.erase s⟩) :: ps', ?_⟩
    simp [List.map_cons]

/-- C7 counterexample: on a fresh `PlaneSubjectAssembler`, retrieval of a
never-seen identifier (not composite-ready, in no plane's store — there
are no planes) raises KeyError from the `self.planes[0]` probe, not the
claimed state ValueError. -/
theorem C7_counterexample :
    planeGetAssembledSubject PlaneSubjectAssembler.init 9 = .error .keyError ∧
    (∀ msg, PyErr.keyError ≠ PyErr.valueError msg) ∧
    (∀ kv ∈ PlaneSubjectAssembler.init.planes, kv.2.predictions.contains 9 = false) := by
  refine ⟨rfl, ?_, ?_⟩
  · intro msg h
    cases h
  · intro kv hkv
    cases hkv

/-- C7 (amended): plane retrieval raises the state ValueError for an
identifier that is not composite-ready and absent from every plane's
store, provided a plane-0 sub-assembler exists; with no plane-0
sub-assembler the `planes[0]` probe raises KeyError instead. On success it
pops every plane and combines per key with the default elementwise-mean
merge: a bare array when the planes hold only the implicit key, and the
per-key mapping of merged arrays when the keys exclude the implicit
key. -/
theorem C7_plane_get_assembled (st : PlaneSubjectAssembler) (s : ℕ) (r : Finset ℕ) :
    (st.subjectsReady = some r → s ∉ r →
      (∃ p0, st.planes.get? (some 0) = some p0) →
      (∀ kv ∈ st.planes, kv.2.predictions.contains s = false) →
      ∃ msg, planeGetAssembledSubject st s = .error (.valueError msg))
    ∧ (st.subjectsReady = some r → s ∉ r → st.planes.get? (some 0) = none →
      planeGetAssembledSubject st s = .error .keyError)
    ∧ (st.subjectsReady = some r → s ∈ r → st.planes ≠ [] →
      (∀ kv ∈ st.planes,
        kv.2.predictions.get? s = some [("__prediction", planeStored s kv)]) →
      ∃ st', planeGetAssembledSubject st s =
        .ok (.bare (mean_merge_fn (st.planes.map (planeStored s))), st'))
    ∧ (∀ ks : List String, st.subjectsReady = some r → s ∈ r → st.planes ≠ [] →
      ks.Nodup → "__prediction" ∉ ks →
      (∀ kv ∈ st.planes,
        kv.2.predictions.get? s = some (ks.map (fun k => (k, planeVal s k kv)))) →
      ∃ st', planeGetAssembledSubject st s =
        .ok (.dict (ks.map (fun k => (k, mean_merge_fn (st.planes.map (planeVal s k))))),
          st')) := by
  refine ⟨?_, ?_, ?_, ?_⟩
  · intro hr hs hp0 hnone
    rcases hp0 with ⟨p0, hp0⟩
    rw [planeGetAssembledSubject]
    simp only [hr]
    rw [if_neg hs, hp0]
    have : p0.predictions.contains s = false :=
      hnone (some 0, p0) (Dict.get?_mem hp0)
    simp only [this]
    exact ⟨"Subject not in assembler", rfl⟩
  · intro hr hs hp0
    rw [planeGetAssembledSubject]
    simp only [hr]
    rw [if_neg hs, hp0]
  · intro hr hs hne hyp
    rw [planeGetAssembledSubject]
    simp only [hr]
    rw [if_pos hs]
    rcases planeCollect_bare_top s st.planes hne hyp with ⟨ps', hps'⟩
    rw [hps']
    exact ⟨⟨ps', some (r.erase s)⟩, rfl⟩
  · intro ks hr hs hne hnd hnp hyp
    rw [planeGetAssembledSubject]
    simp only [hr]
    rw [if_pos hs]
    rcases planeCollect_dict_top s ks hnd hnp st.planes hne hyp with ⟨ps', hps'⟩
    rw [hps']
    have hmerged : (ks.map (fun k => (k, st.planes.map (planeVal s k)))).map
        (fun kx => (kx.1, mean_merge_fn kx.2))
        = ks.map (fun k => (k, mean_merge_fn (st.planes.map (planeVal s k)))) := by
      rw [List.map_map]
      rfl
    have hnm : Dict.get?
        (ks.map (fun k => (k, mean_merge_fn (st.planes.map (planeVal s k)))))
        "__prediction" = none := get?_map_keys ks _ _ hnp
    simp only [hmerged, hnm]
    exact ⟨⟨ps', some (r.erase s)⟩, rfl⟩

/-- One chunk of the stream, as read off a batch position: subject id,
index expression, data slice, declared target shape and channel count. -/
structure Chunk : Type where
  sid : ℕ
  expr : IndexExpr
  data : NArr
  tshape : List ℕ
  chan : ℕ

/-- The chunk at one batch position (if all metadata lookups succeed). -/
def chunkAt (ba : BatchArr) (b : Batch) (idx : ℕ) : Option Chunk :=
  match (b.subjectIndex.getD []).get? idx, (b.indexExpr.getD []).get? idx,
        (b.shape.getD []).get? idx, ba.items.get? idx, ba.shape.getLast? with
  | some s, some e, some sh, some d, some c => some ⟨s, e, d, sh, c⟩
  | _, _, _, _, _ => none

/-- The chunks of one batch, in position order. -/
def batchChunks (ba : BatchArr) (b : Batch) : List Chunk :=
  (List.range (b.subjectIndex.getD []).length).filterMap (chunkAt ba b)

/-- The chunks of a whole stream of batches, in stream order. -/
def chunkList (bs : List (BatchArr × Batch × Bool)) : List Chunk :=
  bs.flatMap (fun x => batchChunks x.1 x.2.1)

/-- Write one chunk into an accumulating array. -/
def chunkWrite (a : NArr) (c : Chunk) : NArr := writeAtN c.expr c.data a

/-- The abstract effect of one chunk on a per-subject array store:
write into the subject's array, starting from zeros if absent. -/
def stepChunk (m : Dict ℕ NArr) (c : Chunk) : Dict ℕ NArr :=
  m.insert c.sid
    (chunkWrite ((m.get? c.sid).getD (numpy_zeros (c.tshape ++ [c.chan]))) c)

/-- Writing a list of chunks into a freshly given array, left to right. -/
def foldChunks (a : NArr) (cs : List Chunk) : NArr := cs.foldl chunkWrite a

/-- Feed a stream of batches (with their last-batch flags) to a
`SubjectAssembler`. -/
def runBatches : List (BatchArr × Batch × Bool) → SubjectAssembler → Except PyErr SubjectAssembler
  | [], st => .ok st
  | x :: rest, st =>
    match SubjectAssembler.addBatch default_sample_fn (.bare x.1) x.2.1 x.2.2 st with
    | .error e => .error e
    | .ok st1 => runBatches rest st1

/-- Well-formed batch metadata for a bare network output: the three
required fields are present, the parallel metadata sequences are at least
batch-size long, and the batch array has a channel dimension. -/
def WFPair (ba : BatchArr) (b : Batch) : Prop :=
  b.subjectIndex.isSome = true ∧ b.indexExpr.isSome = true ∧ b.shape.isSome = true ∧
  (b.subjectIndex.getD []).length ≤ (b.indexExpr.getD []).length ∧
  (b.subjectIndex.getD []).length ≤ (b.shape.getD []).length ∧
  (b.subjectIndex.getD []).length ≤ ba.items.length ∧
  ba.shape ≠ []

instance (ba : BatchArr) (b : Batch) : Decidable (WFPair ba b) := by
  rw [WFPair]
  infer_instance

/-- Every accumulator of the store is a singleton dict under the implicit
key (the invariant of bare-array streams). -/
def BareStore (preds : Dict ℕ (Dict String NArr)) : Prop :=
  ∀ kv ∈ preds, ∃ a, kv.2 = [("__prediction", a)]

/-- The store abstracted to one array per subject (the implicit key's). -/
def absStore (preds : Dict ℕ (Dict String NArr)) : Dict ℕ NArr :=
  preds.map (fun kv => (kv.1, (kv.2.get? "__prediction").getD (numpy_zeros [])))

/-- All coordinates of an array of the given shape. -/
def positions : List ℕ → List Pos
  | [] => [[]]
  | n :: rest => (List.range n).flatMap (fun i => (positions rest).map (fun p => i :: p))

/-- The monotonic-subject-stream precondition: each subject's chunks are
contiguous in the stream. -/
def monotonicIds (ids : List ℕ) : Prop :=
  ∀ i j k : Fin ids.length, i ≤ j → j ≤ k → ids.get i = ids.get k → ids.get i = ids.get j

instance (ids : List ℕ) : Decidable (monotonicIds ids) := by
  rw [monotonicIds]
  infer_instance

/-- The chunks of one subject, in stream order. -/
def chunksFor (s : ℕ) (bs : List (BatchArr × Batch × Bool)) : List Chunk :=
  (chunkList bs).filter (fun c => decide (c.sid = s))

/-- Writing the chunk stream into the store, subject by subject, starting
from the given array when the subject is absent. -/
def chunkFoldOpt : Option NArr → List Chunk → Option NArr
  | o, [] => o
  | o, c :: rest =>
    chunkFoldOpt (some (chunkWrite (o.getD (numpy_zeros (c.tshape ++ [c.chan]))) c)) rest

theorem absStore_get? (preds : Dict ℕ (Dict String NArr)) (s : ℕ) :
    (absStore preds).get? s =
      (preds.get? s).map (fun acc => (acc.get? "__prediction").getD (numpy_zeros [])) := by
  induction preds with
  | nil => rfl
  | cons kv rest ih =>
    by_cases hk : kv.1 = s
    · simp [absStore, Dict.get?, hk]
    · simp only [absStore, List.map_cons, Dict.get?, hk, if_false]
      exact ih

theorem absStore_insert (preds : Dict ℕ (Dict String NArr)) (s : ℕ) (acc : Dict String NArr) :
    absStore (preds.insert s acc) =
      (absStore preds).insert s ((acc.get? "__prediction").getD (numpy_zeros [])) := by
  induction preds with
  | nil => rfl
  | cons kv rest ih =>
    by_cases hk : kv.1 = s
    · simp [absStore, Dict.insert, hk]
    · simp only [absStore, Dict.insert, hk, if_false, List.map_cons]
      rw [← absStore, ← absStore, ih]

theorem mem_insert_cases {K V : Type} [DecidableEq K] (d : Dict K V) (k : K) (v : V)
    (kv : K × V) (h : kv ∈ d.insert k v) : kv = (k, v) ∨ kv ∈ d := by
  induction d with
  | nil => simpa [Dict.insert] using h
  | cons kv0 rest ih =>
    by_cases hk : kv0.1 = k
    · rw [Dict.insert, if_pos hk] at h
      rcases List.mem_cons.mp h with h1 | h1
      · exact Or.inl h1
      · exact Or.inr (List.mem_cons_of_mem _ h1)
    · rw [Dict.insert, if_neg hk] at h
      rcases List.mem_cons.mp h with h1 | h1
      · exact Or.inr (h1 ▸ List.mem_cons_self _ _)
      · rcases ih h1 with h2 | h2
        · exact Or.inl h2
        · exact Or.inr (List.mem_cons_of_mem _ h2)

theorem BareStore_insert (preds : Dict ℕ (Dict String NArr)) (s : ℕ) (arr : NArr)
    (h : BareStore preds) : BareStore (preds.insert s [("__prediction", arr)]) := by
  intro kv hkv
  rcases mem_insert_cases preds s [("__prediction", arr)] kv hkv with h1 | h1
  · exact ⟨arr, by rw [h1]⟩
  · exact h kv h1

theorem chunkFoldOpt_some (cs : List Chunk) : ∀ (a : NArr),
    chunkFoldOpt (some a) cs = some (foldChunks a cs) := by
  induction cs with
  | nil => intro a; rfl
  | cons c rest ih =>
    intro a
    rw [chunkFoldOpt, Option.getD_some, ih]
    rfl

/-- Projecting the store fold to one subject: only that subject's chunks
matter. -/
theorem foldl_stepChunk_get? (s : ℕ) : ∀ (cs : List Chunk) (m : Dict ℕ NArr),
    (cs.foldl stepChunk m).get? s =
      chunkFoldOpt (m.get? s) (cs.filter (fun c => decide (c.sid = s))) := by
  intro cs
  induction cs with
  | nil => intro m; rfl
  | cons c rest ih =>
    intro m
    rw [List.foldl_cons, ih]
    by_cases hsid : c.sid = s
    · rw [List.filter_cons_of_pos (by simp [hsid]), chunkFoldOpt]
      have : (stepChunk m c).get? s =
          some (chunkWrite ((m.get? c.sid).getD (numpy_zeros (c.tshape ++ [c.chan]))) c) := by
        rw [stepChunk, ← hsid]
        exact Dict.get?_insert_self _ _ _
      rw [this, hsid]
    · rw [List.filter_cons_of_neg (by simp [hsid])]
      have : (stepChunk m c).get? s = m.get? s :=
        Dict.get?_insert_ne _ _ _ _ (fun hh => hsid hh.symm)
      rw [this]

theorem foldChunks_shape (cs : List Chunk) : ∀ (a : NArr),
    (foldChunks a cs).shape = a.shape := by
  induction cs with
  | nil => intro a; rfl
  | cons c rest ih => intro a; exact ih (chunkWrite a c)

theorem foldChunks_val_notsel (cs : List Chunk) : ∀ (a : NArr) (p : Pos),
    (∀ c ∈ cs, selects c.expr p = false) → (foldChunks a cs).val p = a.val p := by
  induction cs with
  | nil => intro a p _; rfl
  | cons c rest ih =>
    intro a p h
    have h1 : (foldChunks (chunkWrite a c) rest).val p = (chunkWrite a c).val p :=
      ih (chunkWrite a c) p (fun c' hc' => h c' (List.mem_cons_of_mem _ hc'))
    have h2 : (chunkWrite a c).val p = a.val p := by
      rw [chunkWrite, writeAtN]
      simp [h c (List.mem_cons_self _ _)]
    rw [foldChunks, List.foldl_cons, ← foldChunks, h1, h2]

theorem foldChunks_val_single (cs : List Chunk) : ∀ (a : NArr) (p : Pos) (c : Chunk),
    cs.filter (fun c' => selects c'.expr p) = [c] →
    (foldChunks a cs).val p = c.data.val (relIndex c.expr p) := by
  induction cs with
  | nil =>
    intro a p c h
    simp at h
  | cons c0 rest ih =>
    intro a p c h
    rw [List.filter_cons] at h
    cases hsel : selects c0.expr p with
    | true =>
      rw [if_pos (by simpa using hsel)] at h
      injection h with h1 h2
      subst h1
      have hrest : ∀ c' ∈ rest, selects c'.expr p = false := by
        intro c' hc'
        by_contra hb
        have hmem : c' ∈ rest.filter (fun c' => selects c'.expr p) :=
          List.mem_filter.mpr ⟨hc', by simpa using hb⟩
        rw [h2] at hmem
        cases hmem
      rw [foldChunks, List.foldl_cons, ← foldChunks,
        foldChunks_val_notsel rest (chunkWrite a c0) p hrest]
      rw [chunkWrite, writeAtN]
      simp [hsel]
    | false =>
      rw [if_neg (by simp [hsel])] at h
      rw [foldChunks, List.foldl_cons, ← foldChunks]
      exact ih (chunkWrite a c0) p c h

theorem get?_lt {α : Type} : ∀ (l : List α) (i : ℕ), i < l.length → ∃ x, l.get? i = some x := by
  intro l
  induction l with
  | nil =>
    intro i h
    simp at h
  | cons a rest ih =>
    intro i h
    cases i with
    | zero => exact ⟨a, rfl⟩
    | succ i' => exact ih i' (Nat.lt_of_succ_lt_succ h)

theorem getLast?_of_ne_nil : ∀ (l : List ℕ), l ≠ [] → ∃ x, l.getLast? = some x := by
  intro l
  induction l with
  | nil => intro h; exact absurd rfl h
  | cons a rest ih =>
    intro _
    cases hr : rest with
    | nil => exact ⟨a, rfl⟩
    | cons b rest2 =>
      rcases ih (by simp [hr]) with ⟨x, hx⟩
      refine ⟨x, ?_⟩
      rw [List.getLast?_cons_cons]
      rw [hr] at hx
      exact hx

/-- One step of the key-writing loop on a singleton bare accumulator. -/
theorem writeKeys_bare_step (b : Batch) (idx : ℕ) (s : ℕ) (ba : BatchArr)
    (es : List IndexExpr) (d : NArr) (e : IndexExpr) (st : SubjectAssembler) (a : NArr)
    (hd : ba.items.get? idx = some d) (hes : b.indexExpr = some es)
    (he : es.get? idx = some e)
    (hacc : st.predictions.get? s = some [("__prediction", a)]) :
    writeKeys default_sample_fn b idx s [("__prediction", ba)] st =
      .ok { st with predictions :=
        st.predictions.insert s [("__prediction", writeAtN e d a)] } := by
  simp only [writeKeys, hd, hes, he, hacc]
  rfl

/-- `add_sample` on a bare stream: always succeeds under well-formed
metadata, keeps the store bare, and acts on the abstract store exactly as
`stepChunk`. -/
theorem addSample_bare (ba : BatchArr) (b : Batch) (idx : ℕ) (st : SubjectAssembler)
    (sids : List ℕ) (es : List IndexExpr) (shs : List (List ℕ))
    (s : ℕ) (e : IndexExpr) (sh : List ℕ) (d : NArr) (c0 : ℕ)
    (hsid : b.subjectIndex = some sids) (hes : b.indexExpr = some es)
    (hshs : b.shape = some shs)
    (hs : sids.get? idx = some s) (he : es.get? idx = some e)
    (hsh : shs.get? idx = some sh) (hd : ba.items.get? idx = some d)
    (hc : ba.shape.getLast? = some c0)
    (hbare : BareStore st.predictions) :
    ∃ st', addSample default_sample_fn [("__prediction", ba)] b idx st = .ok st' ∧
      BareStore st'.predictions ∧
      absStore st'.predictions = stepChunk (absStore st.predictions) ⟨s, e, d, sh, c0⟩ := by
  have hinit : initNewSubject b idx [("__prediction", ba)]
      = .ok [("__prediction", numpy_zeros (sh ++ [c0]))] := by
    simp only [initNewSubject, hshs, hsh, hc, Except.map]
  simp only [addSample, hsid, hs]
  by_cases hcont : st.predictions.contains s = true
  · have hc1 : ¬ (¬ st.predictions.contains s = true ∧ st.predictions.isEmpty = true) := by
      simp [hcont]
    rw [if_neg hc1, if_neg (by simp [hcont])]
    obtain ⟨acc, hacc⟩ := Option.isSome_iff_exists.mp (by simpa [Dict.contains] using hcont)
    obtain ⟨a, ha⟩ := hbare (s, acc) (Dict.get?_mem hacc)
    simp only at ha
    subst ha
    show ∃ st', writeKeys default_sample_fn b idx s [("__prediction", ba)] st = .ok st' ∧
      BareStore st'.predictions ∧
      absStore st'.predictions = stepChunk (absStore st.predictions) ⟨s, e, d, sh, c0⟩
    rw [writeKeys_bare_step b idx s ba es d e st a hd hes he hacc]
    refine ⟨_, rfl, BareStore_insert _ _ _ hbare, ?_⟩
    have habs : (absStore st.predictions).get? s = some a := by
      rw [absStore_get?, hacc]
      rfl
    rw [absStore_insert, stepChunk]
    simp only [habs, Option.getD_some]
    rfl
  · have hnone : st.predictions.get? s = none := by
      rw [Dict.contains] at hcont
      exact Option.not_isSome_iff_eq_none.mp (by simpa using hcont)
    have habs : (absStore st.predictions).get? s = none := by
      rw [absStore_get?, hnone]
      rfl
    have hfin : ∀ st1 : SubjectAssembler,
        st1.predictions = st.predictions.insert s [("__prediction", numpy_zeros (sh ++ [c0]))] →
        ∃ st', writeKeys default_sample_fn b idx s [("__prediction", ba)] st1 = .ok st' ∧
          BareStore st'.predictions ∧
          absStore st'.predictions = stepChunk (absStore st.predictions) ⟨s, e, d, sh, c0⟩ := by
      intro st1 hst1
      rw [writeKeys_bare_step b idx s ba es d e st1 (numpy_zeros (sh ++ [c0])) hd hes he
        (by rw [hst1]; exact Dict.get?_insert_self _ _ _)]
      refine ⟨_, rfl, ?_, ?_⟩
      · rw [hst1, Dict.insert_insert_same]
        exact BareStore_insert _ _ _ hbare
      · rw [hst1, Dict.insert_insert_same, absStore_insert, stepChunk]
        simp only [habs, Option.getD_none]
        rfl
    by_cases hemp : st.predictions.isEmpty = true
    · rw [if_pos ⟨hcont, hemp⟩, hinit]
      exact hfin _ rfl
    · rw [if_neg (by simp [hemp]), if_pos hcont, hinit]
      exact hfin _ rfl

/-- The batch loop on a bare stream tracks `stepChunk` over the batch's
chunks. -/
theorem addSamples_bare (ba : BatchArr) (b : Batch)
    (sids : List ℕ) (es : List IndexExpr) (shs : List (List ℕ))
    (hsid : b.subjectIndex = some sids) (hes : b.indexExpr = some es)
    (hshs : b.shape = some shs)
    (hles : sids.length ≤ es.length) (hlshs : sids.length ≤ shs.length)
    (hlit : sids.length ≤ ba.items.length) (hbs : ba.shape ≠ []) :
    ∀ (l : List ℕ), (∀ i ∈ l, i < sids.length) →
    ∀ (st : SubjectAssembler), BareStore st.predictions →
    ∃ st', addSamples default_sample_fn [("__prediction", ba)] b l st = .ok st' ∧
      BareStore st'.predictions ∧
      absStore st'.predictions =
        (l.filterMap (chunkAt ba b)).foldl stepChunk (absStore st.predictions) := by
  intro l
  induction l with
  | nil =>
    intro _ st hb
    exact ⟨st, rfl, hb, rfl⟩
  | cons idx rest ih =>
    intro hl st hb
    have hidx : idx < sids.length := hl idx (List.mem_cons_self _ _)
    obtain ⟨s, hs⟩ := get?_lt sids idx hidx
    obtain ⟨e, he⟩ := get?_lt es idx (Nat.lt_of_lt_of_le hidx hles)
    obtain ⟨sh, hshx⟩ := get?_lt shs idx (Nat.lt_of_lt_of_le hidx hlshs)
    obtain ⟨d, hd⟩ := get?_lt ba.items idx (Nat.lt_of_lt_of_le hidx hlit)
    obtain ⟨c0, hc⟩ := getLast?_of_ne_nil ba.shape hbs
    rcases addSample_bare ba b idx st sids es shs s e sh d c0
      hsid hes hshs hs he hshx hd hc hb with ⟨st1, hok1, hb1, habs1⟩
    rcases ih (fun i hi => hl i (List.mem_cons_of_mem _ hi)) st1 hb1
      with ⟨st', hok2, hb2, habs2⟩
    have hca : chunkAt ba b idx = some ⟨s, e, d, sh, c0⟩ := by
      rw [chunkAt, hsid, hes, hshs]
      simp only [Option.getD_some, hs, he, hshx, hd, hc]
    refine ⟨st', ?_, hb2, ?_⟩
    · simp only [addSamples, hok1]
      exact hok2
    · rw [habs2, habs1, List.filterMap_cons, hca, List.foldl_cons]

/-- Running a stream of well-formed bare batches succeeds and produces
exactly the `stepChunk` fold of the stream's chunks over the abstract
store. -/
theorem runBatches_bare : ∀ (bs : List (BatchArr × Batch × Bool)) (st : SubjectAssembler),
    (∀ x ∈ bs, WFPair x.1 x.2.1) → BareStore st.predictions →
    ∃ st', runBatches bs st = .ok st' ∧ BareStore st'.predictions ∧
      absStore st'.predictions =
        (chunkList bs).foldl stepChunk (absStore st.predictions) := by
  intro bs
  induction bs with
  | nil =>
    intro st _ hb
    exact ⟨st, rfl, hb, rfl⟩
  | cons x rest ih =>
    intro st hwf hb
    obtain ⟨h1, h2, h3, h4, h5, h6, h7⟩ := hwf x (List.mem_cons_self _ _)
    obtain ⟨sids, hsid⟩ := Option.isSome_iff_exists.mp h1
    obtain ⟨es, hes⟩ := Option.isSome_iff_exists.mp h2
    obtain ⟨shs, hshs⟩ := Option.isSome_iff_exists.mp h3
    have hgd : x.2.1.subjectIndex.getD [] = sids := by rw [hsid]; rfl
    have hgde : x.2.1.indexExpr.getD [] = es := by rw [hes]; rfl
    have hgds : x.2.1.shape.getD [] = shs := by rw [hshs]; rfl
    rw [hgd, hgde] at h4
    rw [hgd, hgds] at h5
    rw [hgd] at h6
    rcases addSamples_bare x.1 x.2.1 sids es shs hsid hes hshs h4 h5 h6 h7
      (List.range sids.length) (fun i hi => List.mem_range.mp hi) st hb
      with ⟨st1, hok1, hb1, habs1⟩
    have hbatch : SubjectAssembler.addBatch default_sample_fn (.bare x.1) x.2.1 x.2.2 st
        = .ok (if x.2.2 then st1.endFlush else st1) := by
      rw [SubjectAssembler.addBatch, if_neg (by simp [hsid]), if_neg (by simp [hes]),
        if_neg (by simp [hshs]), hgd]
      rw [ToAssemble.toDict, hok1]
    have hpred : (if x.2.2 then st1.endFlush else st1).predictions = st1.predictions := by
      cases x.2.2 with
      | true => rfl
      | false => rfl
    rcases ih (if x.2.2 then st1.endFlush else st1)
      (fun y hy => hwf y (List.mem_cons_of_mem _ hy)) (hpred ▸ hb1)
      with ⟨st', hok2, hb2, habs2⟩
    refine ⟨st', ?_, hb2, ?_⟩
    · rw [runBatches, hbatch]
      exact hok2
    · rw [habs2, hpred, habs1]
      simp [chunkList, batchChunks, List.foldl_append, hgd]

/-- C1: for a subject whose chunks (streamed across any well-formed
batches under the monotonic-subject-stream precondition) cover every
position of its target shape exactly once, the assembled array equals the
array obtained by writing those same chunks at those same index
expressions into a freshly zero-initialized array of the target shape
extended by the channel count; at each position the value is the covering
chunk's value. -/
theorem C1_assembled_equals_direct_write
    (bs : List (BatchArr × Batch × Bool)) (s : ℕ) (sh : List ℕ) (ch : ℕ)
    (hwf : ∀ x ∈ bs, WFPair x.1 x.2.1)
    (hmono : monotonicIds ((chunkList bs).map Chunk.sid))
    (hocc : s ∈ (chunkList bs).map Chunk.sid)
    (hshape : ∀ c ∈ chunksFor s bs, c.tshape = sh ∧ c.chan = ch)
    (hcov : ∀ p ∈ positions (sh ++ [ch]),
      ((chunksFor s bs).filter (fun c => selects c.expr p)).length = 1) :
    ∃ st' st'',
      runBatches bs SubjectAssembler.init = .ok st' ∧
      st'.getAssembledSubject s =
        .ok (.bare (foldChunks (numpy_zeros (sh ++ [ch])) (chunksFor s bs)), st'') ∧
      ∀ p ∈ positions (sh ++ [ch]), ∀ c ∈ chunksFor s bs, selects c.expr p = true →
        (foldChunks (numpy_zeros (sh ++ [ch])) (chunksFor s bs)).val p =
          c.data.val (relIndex c.expr p) := by
  rcases runBatches_bare bs SubjectAssembler.init hwf (fun kv h => absurd h (List.not_mem_nil kv))
    with ⟨st', hrun, hb, habs⟩
  have hget : (absStore st'.predictions).get? s = chunkFoldOpt none (chunksFor s bs) := by
    rw [habs, foldl_stepChunk_get? s (chunkList bs) (absStore SubjectAssembler.init.predictions)]
    rfl
  obtain ⟨c00, hc00m, hc00s⟩ : ∃ c, c ∈ chunkList bs ∧ c.sid = s := by
    rcases List.mem_map.mp hocc with ⟨c, hc, hcs⟩
    exact ⟨c, hc, hcs⟩
  have hne : chunksFor s bs ≠ [] := by
    intro hnil
    have hm : c00 ∈ chunksFor s bs := List.mem_filter.mpr ⟨hc00m, by simp [hc00s]⟩
    rw [hnil] at hm
    cases hm
  obtain ⟨c0, crest, hcf⟩ := List.exists_cons_of_ne_nil hne
  · have hc0mem : c0 ∈ chunksFor s bs := by
      rw [hcf]
      exact List.mem_cons_self _ _
    obtain ⟨hsh0, hch0⟩ := hshape c0 hc0mem
    have hzero : numpy_zeros (c0.tshape ++ [c0.chan]) = numpy_zeros (sh ++ [ch]) := by
      rw [hsh0, hch0]
    have hfold : chunkFoldOpt none (chunksFor s bs) =
        some (foldChunks (numpy_zeros (sh ++ [ch])) (chunksFor s bs)) := by
      rw [hcf, chunkFoldOpt, Option.getD_none, hzero, chunkFoldOpt_some]
      rfl
    have habs_s : (absStore st'.predictions).get? s =
        some (foldChunks (numpy_zeros (sh ++ [ch])) (chunksFor s bs)) := by
      rw [hget, hfold]
    rw [absStore_get?] at habs_s
    cases hps : st'.predictions.get? s with
    | none =>
      rw [hps] at habs_s
      cases habs_s
    | some acc =>
      rw [hps] at habs_s
      obtain ⟨a, ha⟩ := hb (s, acc) (Dict.get?_mem hps)
      simp only at ha
      subst ha
      have haf : a = foldChunks (numpy_zeros (sh ++ [ch])) (chunksFor s bs) := by
        simpa [Dict.get?] using habs_s
      subst haf
      refine ⟨st', _, hrun, subGet_bare st' s _ hps, ?_⟩
      intro p hp c hcm hsel
      obtain ⟨cu, hcu⟩ := List.length_eq_one.mp (hcov p hp)
      have hcin : c ∈ (chunksFor s bs).filter (fun c' => selects c'.expr p) :=
        List.mem_filter.mpr ⟨hcm, by simpa using hsel⟩
      rw [hcu] at hcin
      have hceq : c = cu := by simpa using hcin
      subst hceq
      exact foldChunks_val_single (chunksFor s bs) (numpy_zeros (sh ++ [ch])) p c hcu

/-- A two-chunk bare batch covering a (2,1) target with one channel. -/
def wC1ba : BatchArr :=
  ⟨[2, 1, 1, 1], [⟨[1, 1, 1], fun _ => 1⟩, ⟨[1, 1, 1], fun _ => 2⟩]⟩

/-- Metadata for `wC1ba`: one subject (7), rows 0 and 1. -/
def wC1b : Batch :=
  { subjectIndex := some [7, 7],
    indexExpr := some [[Selector.idx 0], [Selector.idx 1]],
    shape := some [[2, 1], [2, 1]] }

/-- A one-batch stream of `wC1ba` chunks, flagged last. -/
def wC1bs : List (BatchArr × Batch × Bool) := [(wC1ba, wC1b, true)]

theorem C1_witness :
    ∃ st' st'',
      runBatches wC1bs SubjectAssembler.init = .ok st' ∧
      st'.getAssembledSubject 7 =
        .ok (.bare (foldChunks (numpy_zeros ([2, 1] ++ [1])) (chunksFor 7 wC1bs)), st'') ∧
      ∀ p ∈ positions ([2, 1] ++ [1]), ∀ c ∈ chunksFor 7 wC1bs, selects c.expr p = true →
        (foldChunks (numpy_zeros ([2, 1] ++ [1])) (chunksFor 7 wC1bs)).val p =
          c.data.val (relIndex c.expr p) :=
  C1_assembled_equals_direct_write wC1bs 7 [2, 1] 1
    (by decide) (by decide) (by decide) (by decide) (by decide)

/-- A store already holding subject 3. -/
def st2pre : SubjectAssembler := ⟨[(3, [("__prediction", numpy_zeros [2, 1])])], ∅⟩

/-- A one-key one-chunk output for subject 4. -/
def wtad2 : Dict String BatchArr := [("__prediction", ⟨[1, 2, 1], [⟨[2, 1], fun _ => 5⟩]⟩)]

/-- Metadata for the subject-4 chunk. -/
def wb2 : Batch :=
  { subjectIndex := some [4], indexExpr := some [[Selector.idx 0]], shape := some [[2]] }

theorem C2_witness :
    ∃ st', addSample default_sample_fn wtad2 wb2 0 st2pre = .ok st' ∧
      st'.subjectsReady = keysFinset st2pre.predictions ∧ 4 ∉ st'.subjectsReady := by
  refine ⟨_, rfl, ?_, ?_⟩
  · exact ((C2_flush_on_new_subject default_sample_fn wtad2 wb2 0 st2pre _ [4] 4
      rfl rfl (by decide) rfl).1 (List.cons_ne_nil _ _)).1
  · exact ((C2_flush_on_new_subject default_sample_fn wtad2 wb2 0 st2pre _ [4] 4
      rfl rfl (by decide) rfl).1 (List.cons_ne_nil _ _)).2

theorem C3_witness :
    ∃ st', SubjectAssembler.addBatch default_sample_fn (.bare wC1ba) wC1b true
      SubjectAssembler.init = .ok st' ∧ 7 ∈ st'.subjectsReady := by
  refine ⟨_, rfl, ?_⟩
  exact C3_last_batch_flushes_all default_sample_fn (.bare wC1ba) wC1b
    SubjectAssembler.init _ rfl 7 (by decide)

/-- A store holding subject 3 that was never marked ready. -/
def st4 : SubjectAssembler := ⟨[(3, [("__prediction", numpy_zeros [2, 1])])], ∅⟩

theorem C4_witness :
    (∃ msg, SubjectAssembler.init.getAssembledSubject 3 = .error (.valueError msg)) ∧
    (∃ v st', st4.getAssembledSubject 3 = .ok (v, st')) ∧
    (∃ v st', st4.getAssembledSubject 3 = .ok (v, st') ∧
      st'.predictions.contains 3 = false ∧ 3 ∉ st'.subjectsReady ∧
      ∃ msg, st'.getAssembledSubject 3 = .error (.valueError msg)) := by
  refine ⟨?_, ?_, ?_⟩
  · exact (C4_get_assembled_state_error SubjectAssembler.init 3 (by decide)).1.mpr
      ⟨by decide, by decide⟩
  · exact (C4_get_assembled_state_error st4 3 (by decide)).2.2 (by decide)
  · refine ⟨_, _, rfl, ?_⟩
    exact (C4_get_assembled_state_error st4 3 (by decide)).2.1 _ _ rfl

/-- A two-chunk bare batch hitting two different planes for subject 1. -/
def wpba : BatchArr := ⟨[2, 1, 1, 1], [⟨[2, 1], fun _ => 4⟩, ⟨[2, 1], fun _ => 6⟩]⟩

/-- Metadata routing chunk 0 to plane 0 and chunk 1 to plane 1. -/
def wpb : Batch :=
  { subjectIndex := some [1, 1],
    indexExpr := some [[Selector.idx 0], [Selector.all, Selector.idx 0]],
    shape := some [[2, 2], [2, 2]] }

theorem C5_witness :
    ∃ st', planeAddBatch idSizeCorrection (.bare wpba) wpb true
      PlaneSubjectAssembler.init = .ok st' ∧
      (∃ S, st'.subjectsReady = some S ∧
        ∀ x, x ∈ S ↔ ∀ kv ∈ st'.planes, x ∈ kv.2.subjectsReady) ∧
      (∀ kv ∈ st'.planes, kv.2.subjectsReady = keysFinset kv.2.predictions) := by
  refine ⟨_, rfl, ?_, ?_⟩
  · exact (C5_plane_ready_intersection idSizeCorrection (.bare wpba) wpb true
      PlaneSubjectAssembler.init _ rfl).1 (List.cons_ne_nil _ _)
  · exact (C5_plane_ready_intersection idSizeCorrection (.bare wpba) wpb true
      PlaneSubjectAssembler.init _ rfl).2 rfl

/-- An index expression whose first off-plane selector is a bounded range
at dimension 1. -/
def wC6e : IndexExpr := [Selector.all, Selector.rng 1 3]

theorem C6_witness :
    getPlaneDimension wC6e = some 1 ∧
    requiredPlaneShape [4, 5] 1 wC6e =
      .ok (([4, 5].map (fun n => (n : ℤ))).set 1 ((3 : ℤ) - (1 : ℤ))) := by
  have h := C6_plane_dimension_and_shape wC6e 1 (Selector.rng 1 3) [4, 5]
    (by decide) (by decide) (by decide) (by decide)
  exact ⟨h.1, h.2.1 1 3 rfl⟩

/-- Per-plane arrays for the C7 state. -/
def w7a : NArr := ⟨[2, 2, 1], fun _ => 4⟩

def w7b : NArr := ⟨[2, 2, 1], fun _ => 6⟩

/-- A plane assembler holding subject 1 in two planes, composite-ready. -/
def w7st : PlaneSubjectAssembler :=
  ⟨[(some 0, ⟨[(1, [("__prediction", w7a)])], {1}⟩),
    (some 1, ⟨[(1, [("__prediction", w7b)])], {1}⟩)], some {1}⟩

/-- A plane assembler holding subject 1 in two planes under the key
list `["seg"]` (no implicit key), composite-ready. -/
def w7dst : PlaneSubjectAssembler :=
  ⟨[(some 0, ⟨[(1, [("seg", w7a)])], {1}⟩),
    (some 1, ⟨[(1, [("seg", w7b)])], {1}⟩)], some {1}⟩

theorem C7_witness :
    (∃ msg, planeGetAssembledSubject w7st 9 = .error (.valueError msg)) ∧
    planeGetAssembledSubject PlaneSubjectAssembler.init 9 = .error .keyError ∧
    (∃ st', planeGetAssembledSubject w7st 1 =
      .ok (.bare (mean_merge_fn (w7st.planes.map (planeStored 1))), st')) ∧
    (∃ st', planeGetAssembledSubject w7dst 1 =
      .ok (.dict (["seg"].map (fun k => (k, mean_merge_fn (w7dst.planes.map (planeVal 1 k))))),
        st')) := by
  refine ⟨?_, ?_, ?_, ?_⟩
  · exact (C7_plane_get_assembled w7st 9 {1}).1 rfl (by decide) ⟨_, rfl⟩ (by decide)
  · exact (C7_plane_get_assembled PlaneSubjectAssembler.init 9 ∅).2.1 rfl (by decide) rfl
  · refine (C7_plane_get_assembled w7st 1 {1}).2.2.1 rfl (by decide)
      (List.cons_ne_nil _ _) ?_
    intro kv hkv
    simp only [w7st, List.mem_cons, List.not_mem_nil, or_false] at hkv
    rcases hkv with rfl | rfl
    · rfl
    · rfl
  · refine (C7_plane_get_assembled w7dst 1 {1}).2.2.2 ["seg"] rfl (by decide)
      (List.cons_ne_nil _ _) (by decide) (by decide) ?_
    intro kv hkv
    simp only [w7dst, List.mem_cons, List.not_mem_nil, or_false] at hkv
    rcases hkv with rfl | rfl
    · rfl
    · rfl

theorem C8_witness :
    (∃ msg, SubjectAssembler.addBatch default_sample_fn (.bare missingSidArr) {} false
      SubjectAssembler.init = .error (.valueError msg)) ∧
    (∃ msg, planeAddBatch idSizeCorrection (.bare missingSidArr) {} false
      PlaneSubjectAssembler.init = .error (.valueError msg)) := by
  constructor
  · exact (C8_metadata_validation).1 default_sample_fn (.bare missingSidArr) {} false
      SubjectAssembler.init (Or.inl rfl)
  · exact (C8_metadata_validation).2 idSizeCorrection (.bare missingSidArr) {} false
      PlaneSubjectAssembler.init (Or.inl rfl)

theorem C9_witness :
    (∃ st', s2dAddBatch (.bare twoSubjectArr) twoSubjectBatch false Subject2dAssembler.init
        = .ok st' ∧ 1 ∈ st'.subjectsReady ∧ 2 ∈ st'.subjectsReady) ∧
    (∃ st', s2dAddBatch (.dict [("k", twoSubjectArr)]) emptyKeysBatch false
        Subject2dAssembler.init = .ok st' ∧
      st'.predictions.get? 5 =
        some (((Subject2dAssembler.init.predictions.get? 5).getD []).insert "k"
          ⟨[1], fun _ => 3⟩)) := by
  constructor
  · refine ⟨_, rfl, ?_, ?_⟩
    · exact (C9_flat_assembler).1 (.bare twoSubjectArr) twoSubjectBatch false
        Subject2dAssembler.init _ [1, 2] rfl (List.cons_ne_nil _ _) rfl 1 (by decide)
    · exact (C9_flat_assembler).1 (.bare twoSubjectArr) twoSubjectBatch false
        Subject2dAssembler.init _ [1, 2] rfl (List.cons_ne_nil _ _) rfl 2 (by decide)
  · refine ⟨_, rfl, ?_⟩
    exact (C9_flat_assembler).2.1 "k" twoSubjectArr emptyKeysBatch false
      Subject2dAssembler.init _ 5 ⟨[1], fun _ => 3⟩ rfl rfl rfl

/-- A store whose subject-2 accumulator holds the implicit key alongside a
second key. -/
def st10 : SubjectAssembler := ⟨[(2, [("__prediction", w7a), ("aux", w7b)])], ∅⟩

theorem C10_witness :
    ToAssemble.toDict (.dict [("x", missingSidArr)]) = [("x", missingSidArr)] ∧
    ∃ st', st10.getAssembledSubject 2 = .ok (.bare w7a, st') :=
  C10_prediction_key_shadows [("x", missingSidArr)] st10 2
    [("__prediction", w7a), ("aux", w7b)] w7a w7b "aux" rfl rfl (by decide) rfl
